import Mathlib

/-!
Verification development for the NDC schema flattener
(scripts/flatten_ndc_schemas.py).

The flattener is a dependency resolver and rewriter over a corpus of
XML-Schema documents.  The embedding below mirrors, definition by
definition, the Python source:

* element trees are modelled by the inductive XTree; ElementTree stores a
  tag as the expanded string "left-brace ns right-brace local", which we
  represent directly as the pair (namespace, local);
* Python dicts are association lists with in-place replacement on key
  collision (dinsert), preserving insertion order exactly as CPython does;
* Python sets that the source iterates over are modelled as duplicate-free
  lists in first-insertion order;
* Python None is modelled by Option.none, and Python string truthiness
  (empty string is falsy) is spelled out explicitly;
* ElementTree elements have no structural equality in Python (== is object
  identity); the embedding uses structural equality, which coincides with
  identity on corpora in which equal subtrees are not duplicated.
-/

/-- Association-list lookup with Python dict semantics (first match wins;
lists built with dinsert have unique keys). -/
def dictLookup {α β : Type} [DecidableEq α] : List (α × β) → α → Option β
  | [], _ => none
  | (k, v) :: t, a => if k = a then some v else dictLookup t a

/-- Association-list insertion with Python dict semantics: replaces the value
in place if the key already exists, otherwise appends at the end. -/
def dinsert {α β : Type} [DecidableEq α] : List (α × β) → α → β → List (α × β)
  | [], a, b => [(a, b)]
  | (k, v) :: t, a, b => if k = a then (a, b) :: t else (k, v) :: dinsert t a b

/-- Lexicographic strict order on character lists (by code point), used to
model Python sorted() on strings. -/
def lexLt : List Char → List Char → Bool
  | [], [] => false
  | [], _ :: _ => true
  | _ :: _, [] => false
  | a :: as, b :: bs => a.toNat < b.toNat || (a.toNat = b.toNat && lexLt as bs)

/-- Strict string comparison via lexLt (kernel-reducible stand-in for the
string order that Python sorted() uses). -/
def strLt (a b : String) : Bool := lexLt a.data b.data

/-- Stable insertion of a string into an already sorted list. -/
def insStr (a : String) : List String → List String
  | [] => [a]
  | b :: t => if strLt a b then a :: b :: t else b :: insStr a t

/-- Stable sort of strings: models Python sorted() on a list of strings. -/
def sortStrs (l : List String) : List String := l.foldl (fun acc a => insStr a acc) []

/-- The fixed schema-definition-language namespace (XSD_NS in the source). -/
def XSD_NS : String := "http://www.w3.org/2001/XMLSchema"

/-- Qualified keys (namespace, local name) of global declarations. -/
abbrev QKey := String × String

/-- Split a character list at its first colon: the part before and the part
after (later colons stay in the tail), or none when no colon occurs. -/
def splitFirstColon : List Char → Option (List Char × List Char)
  | [] => none
  | c :: cs =>
    if c = ':' then some ([], cs)
    else
      match splitFirstColon cs with
      | none => none
      | some pq => some (c :: pq.1, pq.2)

/-- split_qname from the source: split a raw reference string on the first
colon, exactly as Python text.split with one maximal split; no colon means
no prefix (Python returns None for the prefix). -/
def split_qname (text : String) : Option String × String :=
  match splitFirstColon text.data with
  | none => (none, text)
  | some pq => (some (String.mk pq.1), String.mk pq.2)

/-- resolve_reference from the source.  Resolves a raw string such as
"cns:Type" against a document's prefix map to (namespace, local name);
the namespace component none models the Python None marker.  Python
truthiness: an empty value yields None overall, an empty prefix counts as
no prefix, and a prefix bound to the empty string counts as unbound. -/
def resolve_reference (value : String) (current_ns : String)
    (prefix_map : List (String × String)) : Option (Option String × String) :=
  if value = "" then none
  else
    match split_qname value with
    | (some p, local_name) =>
      if p = "" then some (some current_ns, local_name)
      else
        match dictLookup prefix_map p with
        | some ns =>
          if ns ≠ "" then some (some ns, local_name)
          else if p = "xs" then some (some XSD_NS, local_name)
          else some (none, local_name)
        | none =>
          if p = "xs" then some (some XSD_NS, local_name)
          else some (none, local_name)
    | (none, local_name) => some (some current_ns, local_name)

/-- An element tree.  The tag is the ElementTree expanded name, stored as the
pair (namespace, local name); attrs are the literal attribute strings. -/
inductive XTree where
  | node (tag : String × String) (attrs : List (String × String)) (children : List XTree)

/-- Tag of an element. -/
def XTree.tag : XTree → String × String
  | .node t _ _ => t

/-- Attribute list of an element. -/
def XTree.attrs : XTree → List (String × String)
  | .node _ a _ => a

/-- Child list of an element. -/
def XTree.children : XTree → List XTree
  | .node _ _ c => c

mutual
/-- Decidable equality on element trees (structural). -/
def decEqT : (a b : XTree) → Decidable (a = b)
  | .node t1 a1 c1, .node t2 a2 c2 =>
    if h1 : t1 = t2 then
      if h2 : a1 = a2 then
        match decEqL c1 c2 with
        | isTrue h3 => isTrue (by rw [h1, h2, h3])
        | isFalse h3 => isFalse (by intro h; cases h; exact h3 rfl)
      else isFalse (by intro h; cases h; exact h2 rfl)
    else isFalse (by intro h; cases h; exact h1 rfl)
/-- Decidable equality on lists of element trees. -/
def decEqL : (a b : List XTree) → Decidable (a = b)
  | [], [] => isTrue rfl
  | [], _ :: _ => isFalse (by intro h; cases h)
  | _ :: _, [] => isFalse (by intro h; cases h)
  | x :: xs, y :: ys =>
    match decEqT x y, decEqL xs ys with
    | isTrue h1, isTrue h2 => isTrue (by rw [h1, h2])
    | isFalse h1, _ => isFalse (by intro h; cases h; exact h1 rfl)
    | isTrue _, isFalse h2 => isFalse (by intro h; cases h; exact h2 rfl)
end

instance : DecidableEq XTree := decEqT

/-- Attribute access: element.get(name) in the source. -/
def getAttr (el : XTree) (a : String) : Option String := dictLookup el.attrs a

mutual
/-- element.iter() from ElementTree: the element itself followed by every
descendant, in document order. -/
def iterT : XTree → List XTree
  | .node t a c => .node t a c :: iterTs c
/-- iter over a list of sibling subtrees. -/
def iterTs : List XTree → List XTree
  | [] => []
  | x :: xs => iterT x ++ iterTs xs
end

/-- The fixed set of reference-bearing attributes the source scans
(type=, base=, ref=, itemType=, substitutionGroup=). -/
def REF_ATTRS : List String := ["type", "base", "ref", "itemType", "substitutionGroup"]

/-- The non-empty reference attribute values carried by one element
(Python: element.get(attr) guarded by truthiness). -/
def refAttrVals (el : XTree) : List String :=
  REF_ATTRS.filterMap (fun a =>
    match getAttr el a with
    | some v => if v = "" then none else some v
    | none => none)

/-- All non-empty reference attribute values in an element's subtree,
element itself included (the element.iter() scan of the source). -/
def subtreeRefVals (el : XTree) : List String :=
  (iterT el).flatMap refAttrVals

/-- The per-document record built by load_schema: schema root element,
target namespace, prefix bindings (from the start-ns event stream),
top-level named declarations, imported paths. -/
structure SchemaInfo where
  root : XTree
  target_ns : String
  prefix_map : List (String × String)
  definitions : List (QKey × XTree)
  imports : List String
deriving DecidableEq

/-- The state of one SchemaFlattener at the start of flatten_message:
the loaded documents in load order, the process-wide global symbol table,
the recorded foreign (non-IATA) schemas, the entry document's record and
the base name of the requested output file. -/
structure FlattenState where
  schemas : List SchemaInfo
  global_definitions : List (QKey × XTree)
  external_schemas : List (String × String)
  mainInfo : SchemaInfo
  baseName : String

/-- The entry document's target namespace (main_ns in flatten_message). -/
def main_ns (st : FlattenState) : String := st.mainInfo.target_ns

/-- Origin-document lookup from the source: scan all loaded documents for
the one whose definitions map contains this exact declaration node. -/
def originOf (st : FlattenState) (k : QKey) (el : XTree) : Option SchemaInfo :=
  st.schemas.find? (fun s =>
    match dictLookup s.definitions k with
    | some e => decide (e = el)
    | none => false)

/-- check_ref from find_used_definitions: resolve one raw value in the
origin document's scope; skip schema-definition-language references and
references absent from the global table; otherwise mark the key used and
enqueue it (the pair is (used set, newly enqueued keys)). -/
def check_ref (st : FlattenState) (og : SchemaInfo)
    (p : List QKey × List QKey) (val : String) : List QKey × List QKey :=
  match resolve_reference val og.target_ns og.prefix_map with
  | none => p
  | some (nsOpt, local_name) =>
    if nsOpt = some XSD_NS then p
    else
      match nsOpt with
      | none => p
      | some ns =>
        if (dictLookup st.global_definitions (ns, local_name)).isSome then
          if (ns, local_name) ∈ p.1 then p
          else (p.1 ++ [(ns, local_name)], p.2 ++ [(ns, local_name)])
        else p

/-- One iteration of the reachability loop body: look up the popped key in
the global table, find its origin document, and run check_ref over the
element's own reference attributes followed by its whole subtree.
Returns the grown used set and the newly enqueued keys. -/
def processOne (st : FlattenState) (used : List QKey) (key : QKey) :
    List QKey × List QKey :=
  match dictLookup st.global_definitions key with
  | none => (used, [])
  | some el =>
    match originOf st key el with
    | none => (used, [])
    | some og =>
      (refAttrVals el ++ subtreeRefVals el).foldl (check_ref st og) (used, [])

/-- The breadth-first reachability loop of find_used_definitions, with an
explicit fuel parameter; the source loop needs none because each key is
enqueued at most once (established by the termination theorem below). -/
def bfs (st : FlattenState) : Nat → List QKey → List QKey → Option (List QKey)
  | 0, _, _ => none
  | _ + 1, used, [] => some used
  | fuel + 1, used, key :: rest =>
    let pr := processOne st used key
    bfs st fuel pr.1 (rest ++ pr.2)

/-- The seed keys of reachability: every declaration of the entry document
whose namespace equals the entry document's target namespace. -/
def seedsOf (st : FlattenState) : List QKey :=
  (st.mainInfo.definitions.map Prod.fst).filter (fun k => k.1 = st.mainInfo.target_ns)

/-- Fuel sufficient for the reachability loop (proved sufficient below). -/
def bfsBound (st : FlattenState) : Nat :=
  2 * st.global_definitions.length + (seedsOf st).length + 1

/-- find_used_definitions from the source: tree shaking starting from the
entry document's own global declarations. -/
def find_used_definitions (st : FlattenState) : List QKey :=
  (bfs st (bfsBound st) (seedsOf st) (seedsOf st)).getD (seedsOf st)

/-- Group the reachable keys by namespace: appends a key to its namespace's
group, creating the group on first sight (dict-of-lists in the source). -/
def groupInsert (m : List (String × List QKey)) (ns : String) (k : QKey) :
    List (String × List QKey) :=
  match m with
  | [] => [(ns, [k])]
  | (n, ks) :: t => if n = ns then (n, ks ++ [k]) :: t else (n, ks) :: groupInsert t ns k

/-- defs_by_ns from flatten_message: the reachable keys grouped by their
namespace, in first-reached order. -/
def defs_by_ns (st : FlattenState) : List (String × List QKey) :=
  (find_used_definitions st).foldl (fun m k => groupInsert m k.1 k) []

/-- other_namespaces from flatten_message: every reachable namespace other
than the entry namespace and the schema-definition-language namespace. -/
def other_namespaces (st : FlattenState) : List String :=
  ((defs_by_ns st).map Prod.fst).filter (fun ns => ns ≠ main_ns st ∧ ns ≠ XSD_NS)

/-- The search for an existing source prefix for a namespace: first loaded
document whose prefix map binds a non-empty prefix to it (lines 281-289). -/
def findSrcPfx (st : FlattenState) (ns : String) : Option String :=
  st.schemas.findSome? (fun s =>
    s.prefix_map.findSome? (fun pu =>
      if pu.2 = ns ∧ pu.1 ≠ "" then some pu.1 else none))

/-- One namespace of the common-prefix assignment loop (lines 280-292). -/
def cnsStep (st : FlattenState) (acc : List (String × String)) (ns : String) :
    List (String × String) :=
  acc ++ [(ns, (findSrcPfx st ns).getD ("cns" ++ toString acc.length))]

/-- cns_namespaces from flatten_message (lines 279-292): assign each common
namespace a prefix, preferring a source prefix and otherwise synthesizing
cns0, cns1, ... by the current size of the map.  Note the source performs
no check that a found prefix is still unused. -/
def cns_namespaces (st : FlattenState) : List (String × String) :=
  (other_namespaces st).foldl (cnsStep st) []

/-- build_prefix_map from the source (lines 194-220).  This helper is dead
code: flatten_message builds its own assignment inline (cns_namespaces
above) and never calls it.  Embedded for reference. -/
def build_prefix_map (st : FlattenState) (namespaces : List String) (mainNs : String) :
    List (String × String) :=
  (sortStrs namespaces).foldl
    (fun acc ns =>
      if ns = mainNs then dinsert acc.1 "tns" ns |> (fun m => (m, acc.2))
      else
        match st.schemas.findSome? (fun s =>
          s.prefix_map.findSome? (fun pu =>
            if pu.2 = ns ∧ pu.1 ≠ "" ∧ (dictLookup acc.1 pu.1).isNone then some pu.1 else none)) with
        | some p => (dinsert acc.1 p ns, acc.2)
        | none => (dinsert acc.1 ("ns" ++ toString acc.2) ns, acc.2 + 1))
    ([("xs", XSD_NS)], 1)
  |>.1

/-- Whether one reachable declaration's subtree carries a reference
attribute resolving to the namespace n (resolution performed, as in the
source, in the declaration's origin document scope). -/
def declRefsNs (st : FlattenState) (k : QKey) (n : String) : Bool :=
  match dictLookup st.global_definitions k with
  | none => false
  | some el =>
    match originOf st k el with
    | none => false
    | some og =>
      (subtreeRefVals el).any (fun v =>
        match resolve_reference v og.target_ns og.prefix_map with
        | some (some m, _) => m = n
        | _ => false)

/-- One step of the used-external-namespace scan: record the resolved
namespace when it is a known external schema (lines 319-328). -/
def uextStep (st : FlattenState) (og : SchemaInfo) (acc : List String) (v : String) :
    List String :=
  match resolve_reference v og.target_ns og.prefix_map with
  | some (some n, _) =>
    if (dictLookup st.external_schemas n).isSome then
      if n ∈ acc then acc else acc ++ [n]
    else acc
  | _ => acc

/-- One reachable key of the used-external-namespace scan (lines 305-328). -/
def usedExtKeyStep (st : FlattenState) (acc : List String) (k : QKey) : List String :=
  match dictLookup st.global_definitions k with
  | none => acc
  | some el =>
    match originOf st k el with
    | none => acc
    | some og => (subtreeRefVals el).foldl (uextStep st og) acc

/-- used_external_namespaces from flatten_message (lines 301-328): the
foreign namespaces actually referenced from some reachable declaration's
subtree. -/
def used_external_namespaces (st : FlattenState) : List String :=
  (find_used_definitions st).foldl (usedExtKeyStep st) []

/-- One prefix binding of the external-prefix collection loop (lines 333-337). -/
def extPfxStep (st : FlattenState) (acc2 : List (String × String)) (pu : String × String) :
    List (String × String) :=
  if pu.2 ≠ "" ∧ pu.2 ∈ used_external_namespaces st ∧
     (dictLookup (cns_namespaces st) pu.2).isNone ∧
     pu.2 ≠ main_ns st ∧ pu.2 ≠ XSD_NS ∧ pu.1 ≠ "" ∧
     (dictLookup acc2 pu.2).isNone
  then acc2 ++ [(pu.2, pu.1)]
  else acc2

/-- external_ns_prefixes from flatten_message (lines 330-337): for each used
external namespace, the first non-empty source prefix bound to it, skipping
common, main and schema-definition-language namespaces. -/
def external_ns_prefixes (st : FlattenState) : List (String × String) :=
  st.schemas.foldl (fun acc s => s.prefix_map.foldl (extPfxStep st) acc) []

/-- The attribute-value rewrite rule of rewrite_prefixes (lines 345-364):
schema-definition-language references get the xs prefix; common-namespace
references get the assigned common prefix; entry-namespace references get
no prefix in the main document and the msg back-reference prefix in a
common document; used foreign references keep their source prefix;
everything else falls back to the bare local name. -/
def rewriteRefVal (st : FlattenState) (og : SchemaInfo) (is_cns_schema : Bool)
    (val : String) : String :=
  match resolve_reference val og.target_ns og.prefix_map with
  | none => val
  | some (refNs, ref_local) =>
    if refNs = some XSD_NS then "xs:" ++ ref_local
    else
      match refNs with
      | some n =>
        match dictLookup (cns_namespaces st) n with
        | some p => p ++ ":" ++ ref_local
        | none =>
          if n = main_ns st then (if is_cns_schema then "msg:" ++ ref_local else ref_local)
          else
            match dictLookup (external_ns_prefixes st) n with
            | some p => p ++ ":" ++ ref_local
            | none => ref_local
      | none => ref_local

mutual
/-- rewrite_prefixes from flatten_message: deep-copy rewrite of every
reference attribute in a declaration's subtree (the target_schema_ns
argument is carried but, as in the source, never read). -/
def rewrite_prefixes (st : FlattenState) (og : SchemaInfo) (target_schema_ns : String)
    (is_cns_schema : Bool) : XTree → XTree
  | .node t attrs ch =>
    .node t
      (attrs.map (fun av =>
        if av.1 ∈ REF_ATTRS ∧ av.2 ≠ "" then (av.1, rewriteRefVal st og is_cns_schema av.2)
        else av))
      (rewrite_prefixes_list st og target_schema_ns is_cns_schema ch)
/-- rewrite_prefixes over a child list. -/
def rewrite_prefixes_list (st : FlattenState) (og : SchemaInfo) (target_schema_ns : String)
    (is_cns_schema : Bool) : List XTree → List XTree
  | [] => []
  | x :: xs =>
    rewrite_prefixes st og target_schema_ns is_cns_schema x ::
      rewrite_prefixes_list st og target_schema_ns is_cns_schema xs
end

/-- A generated output document: target namespace attribute, version
attribute, import statements (namespace, optional schemaLocation) in final
document order, the extra xmlns declarations added by _write_schema_file,
and the rewritten declarations keyed by their QualifiedKey. -/
structure OutDoc where
  target_ns : String
  version : String
  imports : List (String × Option String)
  xmlns_decls : List (String × String)
  body : List (QKey × XTree)
deriving DecidableEq

/-- Whether one character list starts with another. -/
def hasPre : List Char → List Char → Bool
  | [], _ => true
  | _ :: _, [] => false
  | a :: as, b :: bs => a = b && hasPre as bs

/-- Whether a character list occurs as a contiguous subsequence (the Python
in operator on strings). -/
def containsSeq (needle : List Char) : List Char → Bool
  | [] => hasPre needle []
  | c :: cs => hasPre needle (c :: cs) || containsSeq needle cs

/-- get_ct_suffix from flatten_message: common-types filename suffix chosen
by whether the namespace identifier contains "FullyOptional". -/
def get_ct_suffix (ns : String) : String :=
  if containsSeq "FullyOptional".data ns.data then "_OptionalCommonTypes.xsd"
  else "_CommonTypes.xsd"

/-- Output filename of the common-types document for a namespace. -/
def ctFilenameOf (st : FlattenState) (ns : String) : String :=
  st.baseName ++ get_ct_suffix ns

/-- The schemaLocation attached to an external import: last loaded document
(the source's inner break leaves the outer document loop running) whose
root carries a direct import child for that namespace with a non-empty
schemaLocation (lines 429-434). -/
def findImportLoc (st : FlattenState) (extNs : String) : Option String :=
  st.schemas.foldl
    (fun acc s =>
      match s.root.children.findSome? (fun c =>
        if c.tag = (XSD_NS, "import") ∧ getAttr c "namespace" = some extNs then
          match getAttr c "schemaLocation" with
          | some l => if l ≠ "" then some l else none
          | none => none
        else none) with
      | some l => some l
      | none => acc)
    none

/-- One value of the per-common-document scan (lines 410-419): record used
external namespaces and references to other common namespaces. -/
def commonScanVal (st : FlattenState) (ctNs : String) (og : SchemaInfo)
    (acc : List String × List String) (v : String) : List String × List String :=
  match resolve_reference v og.target_ns og.prefix_map with
  | some (some n, _) =>
    if (dictLookup (external_ns_prefixes st) n).isSome then
      (if n ∈ acc.1 then acc.1 else acc.1 ++ [n], acc.2)
    else if (dictLookup (cns_namespaces st) n).isSome ∧ n ≠ ctNs then
      (acc.1, if n ∈ acc.2 then acc.2 else acc.2 ++ [n])
    else acc
  | _ => acc

/-- One key of the common-document generation loop (lines 397-423): look up
the declaration, find its origin, scan its subtree, then append its
rewritten copy.  The accumulator is (used external namespaces, used other
common namespaces, body so far). -/
def commonStep (st : FlattenState) (ctNs : String)
    (acc : List String × List String × List (QKey × XTree)) (key : QKey) :
    List String × List String × List (QKey × XTree) :=
  match dictLookup st.global_definitions key with
  | none => acc
  | some el =>
    match originOf st key el with
    | none => acc
    | some og =>
      let sc := (subtreeRefVals el).foldl (commonScanVal st ctNs og) (acc.1, acc.2.1)
      (sc.1, sc.2, acc.2.2 ++ [(key, rewrite_prefixes st og ctNs true el)])

/-- Stable insertion of a key into a list sorted by local name. -/
def insKey (k : QKey) : List QKey → List QKey
  | [] => [k]
  | b :: t => if strLt k.2 b.2 then k :: b :: t else b :: insKey k t

/-- sorted(keys, key = local name) from the source (stable). -/
def sortKeys (l : List QKey) : List QKey := l.foldl (fun acc k => insKey k acc) []

/-- Generation of one common-namespace output document (lines 379-457):
declarations sorted by name and rewritten in common mode; imports for other
referenced common namespaces then referenced external namespaces (each loop
inserts at position 0, hence the reversed sorted order); xmlns declarations
for the document's own prefix, the used external prefixes, and the other
referenced common prefixes; version fixed at "1.0". -/
def mkCommonDoc (st : FlattenState) (ctNs : String) (pfx : String) (keys : List QKey) :
    OutDoc :=
  let sc := (sortKeys keys).foldl (commonStep st ctNs) ([], [], [])
  { target_ns := ctNs
    version := "1.0"
    imports :=
      (sortStrs sc.2.1).reverse.map (fun o => (o, some (ctFilenameOf st o))) ++
      (sortStrs sc.1).reverse.map (fun e => (e, findImportLoc st e))
    xmlns_decls :=
      [(pfx, ctNs)] ++
      (external_ns_prefixes st).filterMap
        (fun up => if up.1 ∈ sc.1 then some (up.2, up.1) else none) ++
      sc.2.1.map (fun o => ((dictLookup (cns_namespaces st) o).getD "", o))
    body := sc.2.2 }

/-- All generated common-namespace documents, in prefix-map order, skipping
(vacuously, see the source guard) namespaces without reachable keys. -/
def commonDocsOf (st : FlattenState) : List OutDoc :=
  (cns_namespaces st).filterMap (fun np =>
    match dictLookup (defs_by_ns st) np.1 with
    | none => none
    | some keys => some (mkCommonDoc st np.1 np.2 keys))

/-- One key of the main-document generation loop (lines 484-497). -/
def mainStep (st : FlattenState) (acc : List (QKey × XTree)) (key : QKey) :
    List (QKey × XTree) :=
  match dictLookup st.global_definitions key with
  | none => acc
  | some el =>
    match originOf st key el with
    | none => acc
    | some og => acc ++ [(key, rewrite_prefixes st og (main_ns st) false el)]

/-- Generation of the main message document (lines 459-507): version
propagated from the entry document's root (defaulting to "1.0"), imports
for every common namespace holding reachable declarations, the default
xmlns plus every common prefix, and the entry-namespace declarations
sorted by name and rewritten in main mode. -/
def mainDocOf (st : FlattenState) : OutDoc :=
  { target_ns := main_ns st
    version := (getAttr st.mainInfo.root "version").getD "1.0"
    imports :=
      (cns_namespaces st).filterMap (fun np =>
        if (dictLookup (defs_by_ns st) np.1).isSome then
          some (np.1, some (ctFilenameOf st np.1))
        else none)
    xmlns_decls :=
      [("", main_ns st)] ++
      (cns_namespaces st).filterMap (fun np =>
        if np.2 ≠ "" then some (np.2, np.1) else none)
    body :=
      match dictLookup (defs_by_ns st) (main_ns st) with
      | none => []
      | some keys => (sortKeys keys).foldl (mainStep st) [] }

/-- _copy_external_schemas limited (as called by flatten_message) to the
used external namespaces: a file is copied when its namespace is used, the
source file exists and the destination does not (never overwriting).  The
two filesystem facts are abstracted as predicates on the schemaLocation. -/
def copied_external_schemas (st : FlattenState)
    (srcExists dstExists : String → Bool) : List (String × String) :=
  st.external_schemas.filter (fun nl =>
    decide (nl.1 ∈ used_external_namespaces st) && srcExists nl.2 && !dstExists nl.2)

/-- The prefix a flatten run assigns to a non-entry namespace: the fixed xs
prefix for the schema-definition-language namespace, else the common
prefix, else the preserved foreign prefix. -/
def assignedPfx (st : FlattenState) (n : String) : Option String :=
  if n = XSD_NS then some "xs"
  else
    match dictLookup (cns_namespaces st) n with
    | some p => some p
    | none => dictLookup (external_ns_prefixes st) n

/-- The textual prefix carried by a (possibly rewritten) reference value:
the part before the first colon, or empty when there is none. -/
def refPfx (v : String) : String :=
  match split_qname v with
  | (some p, _) => p
  | (none, _) => ""

/-- A parsed document as ET.parse plus the start-ns event stream deliver it:
the root element and the namespace declaration events in document order. -/
abbrev FileSys := List (String × (XTree × List (String × String)))

/-- File-system access for the loader: some parsed document on success,
none when the file is missing or fails to parse (ET.parse raises in both
cases and load_schema catches every exception alike). -/
def fsLookup (fs : FileSys) (p : String) : Option (XTree × List (String × String)) :=
  dictLookup fs p

/-- get_qname from the source, on an expanded tag. -/
def get_qname (tag : String × String) : String := tag.2

/-- get_namespace from the source, on an expanded tag. -/
def get_namespace (tag : String × String) : String := tag.1

/-- Collection of the top-level named declarations of a document
(lines 66-71): children of one of the five declaration kinds carrying a
non-empty name attribute, keyed by (target namespace, name), with dict
last-write-wins on collision. -/
def collect_defs (target_ns : String) (root : XTree) : List (QKey × XTree) :=
  root.children.foldl
    (fun m c =>
      match getAttr c "name" with
      | some nm =>
        if nm ≠ "" ∧ get_qname c.tag ∈
            ["complexType", "simpleType", "element", "group", "attributeGroup"] then
          dinsert m (target_ns, nm) c
        else m
      | none => m)
    []

/-- The record load_schema stores per document (schema_info in the source);
its imports list is filled in while the import children are processed. -/
structure LoadRec where
  root : XTree
  target_ns : String
  prefix_map : List (String × String)
  definitions : List (QKey × XTree)
  imports : List String
deriving DecidableEq

/-- The mutable state of a SchemaFlattener during loading, plus a log of
parse attempts (one entry per ET.parse call) making re-parsing observable. -/
structure LoadState where
  schemas : List (String × LoadRec)
  global_definitions : List (QKey × XTree)
  external_schemas : List (String × String)
  parseLog : List String
deriving DecidableEq

/-- Append one imported path to the stored record of a document (the
source appends to the schema_info dict held in self.schemas). -/
def appendImport (st : LoadState) (path loc : String) : LoadState :=
  match dictLookup st.schemas path with
  | some r => { st with schemas := dinsert st.schemas path { r with imports := r.imports ++ [loc] } }
  | none => st

/-- Processing of one import/include child of a schema root (lines 84-99):
a non-IATA namespace is recorded as an external schema and not recursed
into; otherwise the referenced file is loaded recursively; in both cases
the location is appended to the importing record's imports. -/
def import_step (loadF : String → LoadState → Option LoadRec × LoadState)
    (path : String) (st : LoadState) (c : XTree) : LoadState :=
  if get_qname c.tag = "import" ∨ get_qname c.tag = "include" then
    match getAttr c "schemaLocation" with
    | some loc =>
      if loc ≠ "" then
        let stA :=
          match getAttr c "namespace" with
          | some ns =>
            if ns ≠ "" ∧ ¬ ns.startsWith "http://www.iata.org" then
              { st with external_schemas :=
                  if (dictLookup st.external_schemas ns).isSome then st.external_schemas
                  else st.external_schemas ++ [(ns, loc)] }
            else (loadF loc st).2
          | none => (loadF loc st).2
        appendImport stA path loc
      else st
    | none => st
  else st

/-- load_schema from the source (lines 35-101), with fuel standing in for
the call stack: memoized by path; a failed parse is logged and yields none
without touching the schemas map; a successful parse stores its record
(imports still empty) and publishes its definitions in the global table
BEFORE recursing into import children, then returns the stored record. -/
def load_schema (fs : FileSys) : Nat → String → LoadState → Option LoadRec × LoadState
  | 0, _, st => (none, st)
  | fuel + 1, filename, st =>
    match dictLookup st.schemas filename with
    | some r => (some r, st)
    | none =>
      let st1 := { st with parseLog := st.parseLog ++ [filename] }
      match fsLookup fs filename with
      | none => (none, st1)
      | some (root, startNs) =>
        let target_ns := (getAttr root "targetNamespace").getD ""
        let pm := startNs.foldl (fun m pu => dinsert m pu.1 pu.2) []
        let defs := collect_defs target_ns root
        let rec0 : LoadRec :=
          { root := root, target_ns := target_ns, prefix_map := pm,
            definitions := defs, imports := [] }
        let st2 : LoadState :=
          { st1 with
            schemas := dinsert st1.schemas filename rec0,
            global_definitions :=
              defs.foldl (fun a kv => dinsert a kv.1 kv.2) st1.global_definitions }
        let st3 := root.children.foldl (import_step (load_schema fs fuel) filename) st2
        (some ((dictLookup st3.schemas filename).getD rec0), st3)

/-!  Concrete corpora used as witnesses and counterexamples.  -/

/-- Default element used with headD when destructing computed documents. -/
def dTree : XTree := .node ("", "") [] []

/-- Default body entry used with headD. -/
def dEntry : QKey × XTree := (("", ""), dTree)

/-- Default output document used with headD. -/
def dDoc : OutDoc := { target_ns := "", version := "", imports := [], xmlns_decls := [], body := [] }

/-- Entry-document declaration: element Root of common type cns:AType. -/
def elRoot : XTree := .node (XSD_NS, "element") [("name", "Root"), ("type", "cns:AType")] []

/-- Entry-document declaration: complex type HeaderType. -/
def ctHeader : XTree := .node (XSD_NS, "complexType") [("name", "HeaderType")] []

/-- Entry-document declaration: element Hdr of same-namespace type HeaderType. -/
def elHdr : XTree := .node (XSD_NS, "element") [("name", "Hdr"), ("type", "HeaderType")] []

/-- Root element of the entry document of corpus 1 (version 2.0). -/
def rootE : XTree :=
  .node (XSD_NS, "schema") [("targetNamespace", "urn:M"), ("version", "2.0")]
    [elRoot, ctHeader, elHdr]

/-- Loaded record of corpus 1's entry document (namespace urn:M). -/
def infoE : SchemaInfo :=
  { root := rootE, target_ns := "urn:M",
    prefix_map := [("xs", XSD_NS), ("cns", "urn:C")],
    definitions :=
      [(("urn:M", "Root"), elRoot), (("urn:M", "HeaderType"), ctHeader),
       (("urn:M", "Hdr"), elHdr)],
    imports := [] }

/-- Common-namespace declaration child: element of entry-namespace type
m:HeaderType (a back-reference into the entry namespace). -/
def elH2 : XTree := .node (XSD_NS, "element") [("name", "Hdr2"), ("type", "m:HeaderType")] []

/-- Common-namespace declaration: complex type AType containing elH2. -/
def ctA : XTree := .node (XSD_NS, "complexType") [("name", "AType")] [elH2]

/-- Loaded record of corpus 1's common-namespace document (urn:C), whose
prefix m is bound to the entry namespace. -/
def infoS : SchemaInfo :=
  { root := .node (XSD_NS, "schema") [("targetNamespace", "urn:C")] [ctA],
    target_ns := "urn:C",
    prefix_map := [("xs", XSD_NS), ("m", "urn:M")],
    definitions := [(("urn:C", "AType"), ctA)],
    imports := [] }

/-- Corpus 1: an entry document (version 2.0) referencing one common
namespace, which in turn back-references an entry-namespace type. -/
def st1 : FlattenState :=
  { schemas := [infoE, infoS],
    global_definitions := infoE.definitions ++ infoS.definitions,
    external_schemas := [],
    mainInfo := infoE,
    baseName := "IATA_Test" }

/-- Corpus 3 entry declaration: element Root2 of type p:A. -/
def elRoot2 : XTree := .node (XSD_NS, "element") [("name", "Root2"), ("type", "p:A")] []

/-- Corpus 3 entry document (urn:M2), binding p to urn:C1. -/
def infoE2 : SchemaInfo :=
  { root := .node (XSD_NS, "schema") [("targetNamespace", "urn:M2")] [elRoot2],
    target_ns := "urn:M2",
    prefix_map := [("p", "urn:C1")],
    definitions := [(("urn:M2", "Root2"), elRoot2)],
    imports := [] }

/-- Corpus 3 first common declaration: type A referencing p:B, where this
document binds the same prefix p to the other common namespace urn:C2. -/
def ctA1 : XTree :=
  .node (XSD_NS, "complexType") [("name", "A")]
    [.node (XSD_NS, "element") [("name", "Inner"), ("type", "p:B")] []]

/-- Corpus 3 first common document (urn:C1). -/
def infoS1 : SchemaInfo :=
  { root := .node (XSD_NS, "schema") [("targetNamespace", "urn:C1")] [ctA1],
    target_ns := "urn:C1",
    prefix_map := [("p", "urn:C2")],
    definitions := [(("urn:C1", "A"), ctA1)],
    imports := [] }

/-- Corpus 3 second common declaration: type B with no references. -/
def ctB : XTree := .node (XSD_NS, "complexType") [("name", "B")] []

/-- Corpus 3 second common document (urn:C2). -/
def infoS2 : SchemaInfo :=
  { root := .node (XSD_NS, "schema") [("targetNamespace", "urn:C2")] [ctB],
    target_ns := "urn:C2",
    prefix_map := [],
    definitions := [(("urn:C2", "B"), ctB)],
    imports := [] }

/-- Corpus 3: two reachable common namespaces whose source documents bind
the same prefix p to different namespaces. -/
def st3 : FlattenState :=
  { schemas := [infoE2, infoS1, infoS2],
    global_definitions := infoE2.definitions ++ infoS1.definitions ++ infoS2.definitions,
    external_schemas := [],
    mainInfo := infoE2,
    baseName := "IATA_Coll" }

/-- Corpus 6 entry declaration: element Root6 with no references. -/
def elRoot6 : XTree := .node (XSD_NS, "element") [("name", "Root6")] []

/-- Corpus 6 entry document (urn:M6). -/
def infoE6 : SchemaInfo :=
  { root := .node (XSD_NS, "schema") [("targetNamespace", "urn:M6")] [elRoot6],
    target_ns := "urn:M6",
    prefix_map := [("xs", XSD_NS)],
    definitions := [(("urn:M6", "Root6"), elRoot6)],
    imports := [] }

/-- Corpus 6 unreachable declaration referencing the foreign namespace
urn:X through the prefix ds. -/
def elUnused : XTree := .node (XSD_NS, "element") [("name", "Unused"), ("type", "ds:Sig")] []

/-- Corpus 6 common document (urn:C6) holding only the unreachable
declaration. -/
def infoS6 : SchemaInfo :=
  { root := .node (XSD_NS, "schema") [("targetNamespace", "urn:C6")] [elUnused],
    target_ns := "urn:C6",
    prefix_map := [("ds", "urn:X")],
    definitions := [(("urn:C6", "Unused"), elUnused)],
    imports := [] }

/-- Corpus 6: a recorded foreign schema (urn:X) referenced only from a
declaration that reachability analysis never reaches. -/
def st6 : FlattenState :=
  { schemas := [infoE6, infoS6],
    global_definitions := infoE6.definitions ++ infoS6.definitions,
    external_schemas := [("urn:X", "xmldsig-core-schema.xsd")],
    mainInfo := infoE6,
    baseName := "IATA_Ext" }

/-- Loader fixture: root of the one well-formed document good.xsd. -/
def root10 : XTree :=
  .node (XSD_NS, "schema") [("targetNamespace", "urn:G")]
    [.node (XSD_NS, "element") [("name", "Foo")] []]

/-- Loader fixture file system: good.xsd parses; bad.xsd does not exist
(equivalently, fails to parse). -/
def fs10 : FileSys := [("good.xsd", (root10, [("xs", XSD_NS)]))]

/-- Loader fixture: the fresh state of a new SchemaFlattener. -/
def st0 : LoadState :=
  { schemas := [], global_definitions := [], external_schemas := [], parseLog := [] }

/-- Number of keys of the global table not yet marked used, counted with
multiplicity; the termination measure of the reachability loop. -/
def countFresh (G : List QKey) (u : List QKey) : Nat :=
  (G.filter (fun x => !decide (x ∈ u))).length

/-!  Lemmas: association lists, sorting, grouping.  -/

theorem dictLookup_isSome_iff_mem {α β : Type} [DecidableEq α]
    (m : List (α × β)) (a : α) : (dictLookup m a).isSome ↔ a ∈ m.map Prod.fst := by
  induction m with
  | nil => simp [dictLookup]
  | cons kv t ih =>
    obtain ⟨k, v⟩ := kv
    by_cases h : k = a
    · subst h; simp [dictLookup]
    · simp [dictLookup, h, ih, Ne.symm h]

theorem dictLookup_mem {α β : Type} [DecidableEq α]
    (m : List (α × β)) (a : α) (b : β) (h : dictLookup m a = some b) : (a, b) ∈ m := by
  induction m with
  | nil => simp [dictLookup] at h
  | cons kv t ih =>
    obtain ⟨k, v⟩ := kv
    by_cases hk : k = a
    · subst hk
      simp [dictLookup] at h
      subst h; exact List.mem_cons_self _ _
    · simp [dictLookup, hk] at h
      exact List.mem_cons_of_mem _ (ih h)

theorem mem_insKey (k x : QKey) (l : List QKey) : x ∈ insKey k l ↔ x = k ∨ x ∈ l := by
  induction l with
  | nil => simp [insKey]
  | cons b t ih =>
    by_cases h : strLt k.2 b.2
    · simp [insKey, h]
    · simp [insKey, h, ih]
      tauto

theorem mem_sortKeys_aux (x : QKey) : ∀ (l acc : List QKey),
    x ∈ l.foldl (fun acc k => insKey k acc) acc ↔ x ∈ acc ∨ x ∈ l := by
  intro l
  induction l with
  | nil => intro acc; simp
  | cons k t ih =>
    intro acc
    rw [List.foldl_cons, ih, mem_insKey]
    simp
    tauto

theorem mem_sortKeys (x : QKey) (l : List QKey) : x ∈ sortKeys l ↔ x ∈ l := by
  unfold sortKeys
  rw [mem_sortKeys_aux]
  simp

theorem mem_insStr (a x : String) (l : List String) : x ∈ insStr a l ↔ x = a ∨ x ∈ l := by
  induction l with
  | nil => simp [insStr]
  | cons b t ih =>
    by_cases h : strLt a b
    · simp [insStr, h]
    · simp [insStr, h, ih]
      tauto

theorem mem_sortStrs_aux (x : String) : ∀ (l acc : List String),
    x ∈ l.foldl (fun acc a => insStr a acc) acc ↔ x ∈ acc ∨ x ∈ l := by
  intro l
  induction l with
  | nil => intro acc; simp
  | cons a t ih =>
    intro acc
    rw [List.foldl_cons, ih, mem_insStr]
    simp
    tauto

theorem mem_sortStrs (x : String) (l : List String) : x ∈ sortStrs l ↔ x ∈ l := by
  unfold sortStrs
  rw [mem_sortStrs_aux]
  simp

theorem groupInsert_fst (m : List (String × List QKey)) (ns : String) (k : QKey) :
    (groupInsert m ns k).map Prod.fst =
      if ns ∈ m.map Prod.fst then m.map Prod.fst else m.map Prod.fst ++ [ns] := by
  induction m with
  | nil => simp [groupInsert]
  | cons nk t ih =>
    obtain ⟨n, ks⟩ := nk
    by_cases h : n = ns
    · subst h; simp [groupInsert]
    · by_cases hm : ns ∈ t.map Prod.fst
      · simp [groupInsert, h, ih, hm, Ne.symm h]
      · simp [groupInsert, h, ih, hm, Ne.symm h]

theorem groupInsert_keys_nodup (m : List (String × List QKey)) (ns : String) (k : QKey)
    (h : (m.map Prod.fst).Nodup) : ((groupInsert m ns k).map Prod.fst).Nodup := by
  rw [groupInsert_fst]
  split
  · exact h
  · rename_i hmem
    simp [List.nodup_append, h, hmem]

theorem dictLookup_groupInsert_self (m : List (String × List QKey)) (ns : String) (k : QKey) :
    dictLookup (groupInsert m ns k) ns = some ((dictLookup m ns).getD [] ++ [k]) := by
  induction m with
  | nil => simp [groupInsert, dictLookup]
  | cons nk t ih =>
    obtain ⟨n, ks⟩ := nk
    by_cases h : n = ns
    · subst h; simp [groupInsert, dictLookup]
    · simp [groupInsert, h, dictLookup, ih]

theorem dictLookup_groupInsert_ne (m : List (String × List QKey)) (ns n : String) (k : QKey)
    (h : n ≠ ns) : dictLookup (groupInsert m ns k) n = dictLookup m n := by
  induction m with
  | nil => simp [groupInsert, dictLookup, Ne.symm h]
  | cons nk t ih =>
    obtain ⟨nn, ks⟩ := nk
    by_cases h2 : nn = ns
    · subst h2; simp [groupInsert, dictLookup, Ne.symm h]
    · simp [groupInsert, h2, dictLookup, ih]

theorem groupFold_values :
    ∀ (l : List QKey) (m : List (String × List QKey)) (ns : String) (keys : List QKey)
      (x : QKey),
      dictLookup (l.foldl (fun m k => groupInsert m k.1 k) m) ns = some keys →
      x ∈ keys →
      (∃ ks0, dictLookup m ns = some ks0 ∧ x ∈ ks0) ∨ x ∈ l := by
  intro l
  induction l with
  | nil =>
    intro m ns keys x h hx
    exact Or.inl ⟨keys, h, hx⟩
  | cons k t ih =>
    intro m ns keys x h hx
    rw [List.foldl_cons] at h
    rcases ih (groupInsert m k.1 k) ns keys x h hx with h1 | h1
    · obtain ⟨ks0, hl, hxk⟩ := h1
      by_cases hns : ns = k.1
      · rw [hns, dictLookup_groupInsert_self] at hl
        cases hl
        rcases List.mem_append.mp hxk with h2 | h2
        · cases hdm : dictLookup m k.1 with
          | none => rw [hdm] at h2; simp at h2
          | some ks1 =>
            rw [hdm] at h2
            exact Or.inl ⟨ks1, by rw [hns, hdm], h2⟩
        · simp at h2
          subst h2
          exact Or.inr (List.mem_cons_self _ _)
      · rw [dictLookup_groupInsert_ne _ _ _ _ hns] at hl
        exact Or.inl ⟨ks0, hl, hxk⟩
    · exact Or.inr (List.mem_cons_of_mem _ h1)

theorem groupFold_fst_sub :
    ∀ (l : List QKey) (m : List (String × List QKey)) (ns : String),
      ns ∈ (l.foldl (fun m k => groupInsert m k.1 k) m).map Prod.fst →
      ns ∈ m.map Prod.fst ∨ ns ∈ l.map (fun k => k.1) := by
  intro l
  induction l with
  | nil => intro m ns h; exact Or.inl h
  | cons k t ih =>
    intro m ns h
    rw [List.foldl_cons] at h
    rcases ih (groupInsert m k.1 k) ns h with h1 | h1
    · rw [groupInsert_fst] at h1
      split at h1
      · exact Or.inl h1
      · rcases List.mem_append.mp h1 with h2 | h2
        · exact Or.inl h2
        · simp at h2
          subst h2
          exact Or.inr (by simp)
    · exact Or.inr (by simp [h1])

theorem groupFold_keys_nodup :
    ∀ (l : List QKey) (m : List (String × List QKey)),
      (m.map Prod.fst).Nodup →
      ((l.foldl (fun m k => groupInsert m k.1 k) m).map Prod.fst).Nodup := by
  intro l
  induction l with
  | nil => intro m h; exact h
  | cons k t ih =>
    intro m h
    rw [List.foldl_cons]
    exact ih _ (groupInsert_keys_nodup _ _ _ h)

theorem defs_by_ns_values (st : FlattenState) (ns : String) (keys : List QKey)
    (h : dictLookup (defs_by_ns st) ns = some keys) :
    ∀ x ∈ keys, x ∈ find_used_definitions st := by
  intro x hx
  rcases groupFold_values (find_used_definitions st) [] ns keys x h hx with h1 | h1
  · obtain ⟨ks0, hl, _⟩ := h1
    simp [dictLookup] at hl
  · exact h1

theorem defs_by_ns_keys (st : FlattenState) (ns : String)
    (h : ns ∈ (defs_by_ns st).map Prod.fst) :
    ∃ k ∈ find_used_definitions st, k.1 = ns := by
  rcases groupFold_fst_sub (find_used_definitions st) [] ns h with h1 | h1
  · simp at h1
  · obtain ⟨k, hk, hk2⟩ := List.mem_map.mp h1
    exact ⟨k, hk, hk2⟩

theorem defs_by_ns_keys_nodup (st : FlattenState) :
    ((defs_by_ns st).map Prod.fst).Nodup :=
  groupFold_keys_nodup (find_used_definitions st) [] (by simp)

/-!  Lemmas: the reachability loop.  -/

theorem countFresh_append_lt (G u : List QKey) (k : QKey) (h1 : k ∈ G) (h2 : k ∉ u) :
    countFresh G (u ++ [k]) < countFresh G u := by
  have hsub : List.Sublist (G.filter (fun x => !decide (x ∈ u ++ [k])))
      (G.filter (fun x => !decide (x ∈ u))) := by
    apply List.monotone_filter_right
    intro a ha
    simp only [Bool.not_eq_true', decide_eq_false_iff_not, List.mem_append] at *
    intro hmem
    exact ha (Or.inl hmem)
  have hk2 : k ∈ G.filter (fun x => !decide (x ∈ u)) := by
    simp [List.mem_filter, h1, h2]
  have hk1 : k ∉ G.filter (fun x => !decide (x ∈ u ++ [k])) := by
    simp [List.mem_filter]
  have hle := hsub.length_le
  rcases Nat.eq_or_lt_of_le hle with he | hlt
  · exact absurd (hsub.eq_of_length he ▸ hk2) hk1
  · exact hlt

theorem countFresh_append_le (G : List QKey) :
    ∀ (new u : List QKey), new.Nodup → (∀ x ∈ new, x ∈ G ∧ x ∉ u) →
      countFresh G (u ++ new) + new.length ≤ countFresh G u := by
  intro new
  induction new with
  | nil => intro u _ _; simp
  | cons a t ih =>
    intro u hnd hall
    have ha := hall a (List.mem_cons_self _ _)
    have hlt := countFresh_append_lt G u a ha.1 ha.2
    have ht : ∀ x ∈ t, x ∈ G ∧ x ∉ u ++ [a] := by
      intro x hx
      have hxa : x ≠ a := by
        intro he
        subst he
        exact (List.nodup_cons.mp hnd).1 hx
      have := hall x (List.mem_cons_of_mem _ hx)
      exact ⟨this.1, by simp [List.mem_append, this.2, hxa]⟩
    have ihr := ih (u ++ [a]) (List.nodup_cons.mp hnd).2 ht
    have hassoc : u ++ a :: t = (u ++ [a]) ++ t := by simp
    rw [hassoc]
    simp only [List.length_cons]
    omega

theorem check_ref_cases (st : FlattenState) (og : SchemaInfo)
    (p : List QKey × List QKey) (val : String) :
    check_ref st og p val = p ∨
    ∃ k, (dictLookup st.global_definitions k).isSome ∧ k ∉ p.1 ∧
      check_ref st og p val = (p.1 ++ [k], p.2 ++ [k]) := by
  cases hres : resolve_reference val og.target_ns og.prefix_map with
  | none => simp [check_ref, hres]
  | some pr =>
    obtain ⟨nsOpt, local_name⟩ := pr
    by_cases hx : nsOpt = some XSD_NS
    · simp [check_ref, hres, hx]
    · cases nsOpt with
      | none => simp [check_ref, hres, hx]
      | some ns =>
        cases hs : (dictLookup st.global_definitions (ns, local_name)).isSome with
        | false => simp [check_ref, hres, hx, hs]
        | true =>
          by_cases hm : (ns, local_name) ∈ p.1
          · simp [check_ref, hres, hx, hs, hm]
          · right
            refine ⟨(ns, local_name), hs, hm, ?_⟩
            simp [check_ref, hres, hx, hs, hm]

theorem checkRefFold_inv (st : FlattenState) (og : SchemaInfo) (u0 : List QKey) :
    ∀ (vals : List String) (p : List QKey × List QKey),
      (p.1 = u0 ++ p.2 ∧ p.2.Nodup ∧
        ∀ k ∈ p.2, k ∉ u0 ∧ (dictLookup st.global_definitions k).isSome) →
      (let q := vals.foldl (check_ref st og) p
       q.1 = u0 ++ q.2 ∧ q.2.Nodup ∧
        ∀ k ∈ q.2, k ∉ u0 ∧ (dictLookup st.global_definitions k).isSome) := by
  intro vals
  induction vals with
  | nil => intro p hp; exact hp
  | cons v vs ih =>
    intro p hp
    rw [List.foldl_cons]
    apply ih
    rcases check_ref_cases st og p v with hc | hc
    · rw [hc]; exact hp
    · obtain ⟨k, hsome, hnmem, hc⟩ := hc
      rw [hc]
      obtain ⟨hp1, hp2, hp3⟩ := hp
      have hku0 : k ∉ u0 := by
        intro hk
        exact hnmem (hp1 ▸ List.mem_append_left _ hk)
      have hkp2 : k ∉ p.2 := by
        intro hk
        exact hnmem (hp1 ▸ List.mem_append_right _ hk)
      refine ⟨by rw [hp1, List.append_assoc], ?_, ?_⟩
      · simp [List.nodup_append, hp2, hkp2]
      · intro x hx
        rcases List.mem_append.mp hx with h1 | h1
        · exact hp3 x h1
        · simp at h1
          subst h1
          exact ⟨hku0, hsome⟩

theorem processOne_spec (st : FlattenState) (used : List QKey) (key : QKey) :
    (processOne st used key).1 = used ++ (processOne st used key).2 ∧
    (processOne st used key).2.Nodup ∧
    ∀ k ∈ (processOne st used key).2,
      k ∉ used ∧ (dictLookup st.global_definitions k).isSome := by
  cases hel : dictLookup st.global_definitions key with
  | none => simp [processOne, hel]
  | some el =>
    cases hog : originOf st key el with
    | none => simp [processOne, hel, hog]
    | some og =>
      have heq : processOne st used key =
          (refAttrVals el ++ subtreeRefVals el).foldl (check_ref st og) (used, []) := by
        simp [processOne, hel, hog]
      rw [heq]
      exact checkRefFold_inv st og used (refAttrVals el ++ subtreeRefVals el) (used, [])
        (by simp)

theorem bfs_total (st : FlattenState) :
    ∀ (fuel : Nat) (u q : List QKey),
      2 * countFresh (st.global_definitions.map Prod.fst) u + q.length < fuel →
      ∃ r, bfs st fuel u q = some r := by
  intro fuel
  induction fuel with
  | zero => intro u q h; omega
  | succ n ih =>
    intro u q h
    cases q with
    | nil => exact ⟨u, rfl⟩
    | cons key rest =>
      have hspec := processOne_spec st u key
      obtain ⟨h1, h2, h3⟩ := hspec
      have hG : ∀ x ∈ (processOne st u key).2,
          x ∈ st.global_definitions.map Prod.fst ∧ x ∉ u := by
        intro x hx
        exact ⟨(dictLookup_isSome_iff_mem _ _).mp (h3 x hx).2, (h3 x hx).1⟩
      have hle := countFresh_append_le (st.global_definitions.map Prod.fst)
        (processOne st u key).2 u h2 hG
      have heq : bfs st (n + 1) u (key :: rest) =
          bfs st n (processOne st u key).1 (rest ++ (processOne st u key).2) := rfl
      rw [heq, h1]
      apply ih
      simp only [List.length_append, List.length_cons] at *
      omega

theorem bfs_sub (st : FlattenState) :
    ∀ (fuel : Nat) (u q r : List QKey), bfs st fuel u q = some r →
      ∀ k ∈ r, k ∈ u ∨ (dictLookup st.global_definitions k).isSome := by
  intro fuel
  induction fuel with
  | zero => intro u q r h; simp [bfs] at h
  | succ n ih =>
    intro u q r h
    cases q with
    | nil =>
      simp [bfs] at h
      subst h
      intro k hk
      exact Or.inl hk
    | cons key rest =>
      have heq : bfs st (n + 1) u (key :: rest) =
          bfs st n (processOne st u key).1 (rest ++ (processOne st u key).2) := rfl
      rw [heq] at h
      intro k hk
      rcases ih _ _ _ h k hk with h1 | h1
      · obtain ⟨hp1, _, hp3⟩ := processOne_spec st u key
        rw [hp1] at h1
        rcases List.mem_append.mp h1 with h2 | h2
        · exact Or.inl h2
        · exact Or.inr (hp3 k h2).2
      · exact Or.inr h1

theorem find_used_total (st : FlattenState) :
    bfs st (bfsBound st) (seedsOf st) (seedsOf st) =
      some (find_used_definitions st) := by
  have h : 2 * countFresh (st.global_definitions.map Prod.fst) (seedsOf st) +
      (seedsOf st).length < bfsBound st := by
    have hle : countFresh (st.global_definitions.map Prod.fst) (seedsOf st) ≤
        (st.global_definitions.map Prod.fst).length := List.length_filter_le _ _
    have hlen : (st.global_definitions.map Prod.fst).length =
        st.global_definitions.length := List.length_map _ _
    unfold bfsBound
    omega
  obtain ⟨r, hr⟩ := bfs_total st (bfsBound st) (seedsOf st) (seedsOf st) h
  unfold find_used_definitions
  rw [hr]
  simp

theorem used_key_cases (st : FlattenState) :
    ∀ k ∈ find_used_definitions st,
      k ∈ seedsOf st ∨ (dictLookup st.global_definitions k).isSome := by
  intro k hk
  exact bfs_sub st (bfsBound st) (seedsOf st) (seedsOf st)
    (find_used_definitions st) (find_used_total st) k hk

theorem seeds_ns (st : FlattenState) :
    ∀ k ∈ seedsOf st, k ∈ st.mainInfo.definitions.map Prod.fst ∧
      k.1 = st.mainInfo.target_ns := by
  intro k hk
  unfold seedsOf at hk
  have := List.mem_filter.mp hk
  exact ⟨this.1, by simpa using this.2⟩

/-!  Lemmas: the output planner.  -/

theorem cnsFold_fst (st : FlattenState) :
    ∀ (l : List String) (acc : List (String × String)),
      ((l.foldl (cnsStep st) acc).map Prod.fst) = acc.map Prod.fst ++ l := by
  intro l
  induction l with
  | nil => intro acc; simp
  | cons ns t ih =>
    intro acc
    rw [List.foldl_cons, ih]
    simp [cnsStep]

theorem cns_fst (st : FlattenState) :
    (cns_namespaces st).map Prod.fst = other_namespaces st := by
  unfold cns_namespaces
  rw [cnsFold_fst]
  simp

theorem other_namespaces_spec (st : FlattenState) (ns : String)
    (h : ns ∈ other_namespaces st) :
    ns ∈ (defs_by_ns st).map Prod.fst ∧ ns ≠ main_ns st ∧ ns ≠ XSD_NS := by
  unfold other_namespaces at h
  have := List.mem_filter.mp h
  refine ⟨this.1, ?_⟩
  have h2 := this.2
  simp at h2
  exact h2

theorem cns_lookup_mem (st : FlattenState) (n : String) (p : String)
    (h : dictLookup (cns_namespaces st) n = some p) : n ∈ other_namespaces st := by
  rw [← cns_fst]
  exact (dictLookup_isSome_iff_mem _ _).mp (by simp [h])

theorem extPfxStep_mem (st : FlattenState) (acc : List (String × String))
    (pu : String × String) (x : String × String) (h : x ∈ extPfxStep st acc pu) :
    x ∈ acc ∨ (x.1 ∈ used_external_namespaces st ∧ x.1 ≠ main_ns st) := by
  unfold extPfxStep at h
  split at h
  · rcases List.mem_append.mp h with h1 | h1
    · exact Or.inl h1
    · simp at h1
      subst h1
      rename_i hcond
      exact Or.inr ⟨hcond.2.1, hcond.2.2.2.1⟩
  · exact Or.inl h

theorem extPfxFoldInner_mem (st : FlattenState) :
    ∀ (pm : List (String × String)) (acc : List (String × String)) (x : String × String),
      x ∈ pm.foldl (extPfxStep st) acc →
      x ∈ acc ∨ (x.1 ∈ used_external_namespaces st ∧ x.1 ≠ main_ns st) := by
  intro pm
  induction pm with
  | nil => intro acc x h; exact Or.inl h
  | cons pu t ih =>
    intro acc x h
    rw [List.foldl_cons] at h
    rcases ih _ x h with h1 | h1
    · exact extPfxStep_mem st acc pu x h1
    · exact Or.inr h1

theorem ext_pfx_spec (st : FlattenState) (x : String × String)
    (h : x ∈ external_ns_prefixes st) :
    x.1 ∈ used_external_namespaces st ∧ x.1 ≠ main_ns st := by
  unfold external_ns_prefixes at h
  have haux : ∀ (ss : List SchemaInfo) (acc : List (String × String)),
      x ∈ ss.foldl (fun acc s => s.prefix_map.foldl (extPfxStep st) acc) acc →
      x ∈ acc ∨ (x.1 ∈ used_external_namespaces st ∧ x.1 ≠ main_ns st) := by
    intro ss
    induction ss with
    | nil => intro acc h2; exact Or.inl h2
    | cons s t ih =>
      intro acc h2
      rw [List.foldl_cons] at h2
      rcases ih _ h2 with h1 | h1
      · exact extPfxFoldInner_mem st s.prefix_map acc x h1
      · exact Or.inr h1
  rcases haux st.schemas [] h with h1 | h1
  · simp at h1
  · exact h1

theorem ext_lookup_spec (st : FlattenState) (n : String) (p : String)
    (h : dictLookup (external_ns_prefixes st) n = some p) :
    n ∈ used_external_namespaces st ∧ n ≠ main_ns st :=
  ext_pfx_spec st (n, p) (dictLookup_mem _ _ _ h)

theorem uextStep_mem (st : FlattenState) (og : SchemaInfo) (acc : List String)
    (v : String) (x : String) (h : x ∈ uextStep st og acc v) :
    x ∈ acc ∨ ((dictLookup st.external_schemas x).isSome ∧
      ∃ l, resolve_reference v og.target_ns og.prefix_map = some (some x, l)) := by
  unfold uextStep at h
  cases hres : resolve_reference v og.target_ns og.prefix_map with
  | none => rw [hres] at h; exact Or.inl h
  | some pr =>
    obtain ⟨nsOpt, l⟩ := pr
    cases nsOpt with
    | none => rw [hres] at h; exact Or.inl h
    | some n =>
      rw [hres] at h
      by_cases hs : (dictLookup st.external_schemas n).isSome
      · simp only [hs, if_true] at h
        by_cases hm : n ∈ acc
        · simp [hm] at h; exact Or.inl h
        · simp [hm] at h
          rcases h with h1 | h1
          · exact Or.inl h1
          · subst h1
            exact Or.inr ⟨hs, l, rfl⟩
      · simp only [hs, if_false] at h
        simp at hs
        simp [hs] at h
        exact Or.inl h

theorem uextFold_mem (st : FlattenState) (og : SchemaInfo) :
    ∀ (vals : List String) (acc : List String) (x : String),
      x ∈ vals.foldl (uextStep st og) acc →
      x ∈ acc ∨ ((dictLookup st.external_schemas x).isSome ∧
        ∃ v ∈ vals, ∃ l, resolve_reference v og.target_ns og.prefix_map = some (some x, l)) := by
  intro vals
  induction vals with
  | nil => intro acc x h; exact Or.inl h
  | cons v vs ih =>
    intro acc x h
    rw [List.foldl_cons] at h
    rcases ih _ x h with h1 | h1
    · rcases uextStep_mem st og acc v x h1 with h2 | h2
      · exact Or.inl h2
      · exact Or.inr ⟨h2.1, v, List.mem_cons_self _ _, h2.2⟩
    · exact Or.inr ⟨h1.1, by
        obtain ⟨w, hw, hl⟩ := h1.2
        exact ⟨w, List.mem_cons_of_mem _ hw, hl⟩⟩

theorem usedExtKeyStep_mem (st : FlattenState) (acc : List String) (k : QKey) (x : String)
    (h : x ∈ usedExtKeyStep st acc k) :
    x ∈ acc ∨ ((dictLookup st.external_schemas x).isSome ∧ declRefsNs st k x = true) := by
  cases hel : dictLookup st.global_definitions k with
  | none =>
    have heq : usedExtKeyStep st acc k = acc := by simp [usedExtKeyStep, hel]
    rw [heq] at h
    exact Or.inl h
  | some el =>
    cases hog : originOf st k el with
    | none =>
      have heq : usedExtKeyStep st acc k = acc := by simp [usedExtKeyStep, hel, hog]
      rw [heq] at h
      exact Or.inl h
    | some og =>
      have heq : usedExtKeyStep st acc k =
          (subtreeRefVals el).foldl (uextStep st og) acc := by
        simp [usedExtKeyStep, hel, hog]
      rw [heq] at h
      rcases uextFold_mem st og (subtreeRefVals el) acc x h with h1 | h1
      · exact Or.inl h1
      · refine Or.inr ⟨h1.1, ?_⟩
        obtain ⟨v, hv, l, hres⟩ := h1.2
        have hd : declRefsNs st k x =
            (subtreeRefVals el).any (fun w =>
              match resolve_reference w og.target_ns og.prefix_map with
              | some (some m, _) => m = x
              | _ => false) := by
          simp [declRefsNs, hel, hog]
        rw [hd]
        apply List.any_eq_true.mpr
        refine ⟨v, hv, ?_⟩
        simp [hres]

theorem usedExt_spec (st : FlattenState) :
    ∀ n ∈ used_external_namespaces st,
      (dictLookup st.external_schemas n).isSome ∧
      ∃ k ∈ find_used_definitions st, declRefsNs st k n = true := by
  have haux : ∀ (l : List QKey) (acc : List String),
      (∀ k ∈ l, k ∈ find_used_definitions st) →
      (∀ x ∈ acc, (dictLookup st.external_schemas x).isSome ∧
        ∃ k ∈ find_used_definitions st, declRefsNs st k x = true) →
      ∀ x ∈ l.foldl (usedExtKeyStep st) acc,
        (dictLookup st.external_schemas x).isSome ∧
        ∃ k ∈ find_used_definitions st, declRefsNs st k x = true := by
    intro l
    induction l with
    | nil => intro acc _ hacc x hx; exact hacc x hx
    | cons k t ih =>
      intro acc hl hacc x hx
      rw [List.foldl_cons] at hx
      refine ih _ (fun k2 hk2 => hl k2 (List.mem_cons_of_mem _ hk2)) ?_ x hx
      intro y hy
      rcases usedExtKeyStep_mem st acc k y hy with h1 | h1
      · exact hacc y h1
      · exact ⟨h1.1, k, hl k (List.mem_cons_self _ _), h1.2⟩
  intro n hn
  exact haux (find_used_definitions st) [] (fun _ hk => hk) (by simp)
    n hn

/-!  Lemmas: output document generation.  -/

theorem commonScanVal_cases (st : FlattenState) (ctNs : String) (og : SchemaInfo)
    (acc : List String × List String) (v : String) :
    commonScanVal st ctNs og acc v = acc ∨
    (∃ n, (dictLookup (external_ns_prefixes st) n).isSome ∧
      commonScanVal st ctNs og acc v = (acc.1 ++ [n], acc.2)) ∨
    (∃ n, (dictLookup (cns_namespaces st) n).isSome ∧
      commonScanVal st ctNs og acc v = (acc.1, acc.2 ++ [n])) := by
  unfold commonScanVal
  cases hres : resolve_reference v og.target_ns og.prefix_map with
  | none => exact Or.inl rfl
  | some pr =>
    obtain ⟨nsOpt, l⟩ := pr
    cases nsOpt with
    | none => exact Or.inl rfl
    | some n =>
      by_cases he : (dictLookup (external_ns_prefixes st) n).isSome
      · by_cases hm : n ∈ acc.1
        · exact Or.inl (by simp [he, hm])
        · exact Or.inr (Or.inl ⟨n, he, by simp [he, hm]⟩)
      · by_cases hc : (dictLookup (cns_namespaces st) n).isSome ∧ n ≠ ctNs
        · by_cases hm : n ∈ acc.2
          · exact Or.inl (by simp [he, hc, hm])
          · exact Or.inr (Or.inr ⟨n, hc.1, by simp [he, hc, hm]⟩)
        · exact Or.inl (by simp [he, hc])

theorem commonScanFold_ext (st : FlattenState) (ctNs : String) (og : SchemaInfo) :
    ∀ (vals : List String) (acc : List String × List String) (x : String),
      x ∈ (vals.foldl (commonScanVal st ctNs og) acc).1 →
      x ∈ acc.1 ∨ (dictLookup (external_ns_prefixes st) x).isSome := by
  intro vals
  induction vals with
  | nil => intro acc x h; exact Or.inl h
  | cons v vs ih =>
    intro acc x h
    rw [List.foldl_cons] at h
    rcases ih _ x h with h1 | h1
    · rcases commonScanVal_cases st ctNs og acc v with hc | hc | hc
      · rw [hc] at h1; exact Or.inl h1
      · obtain ⟨n, hn, hc⟩ := hc
        rw [hc] at h1
        rcases List.mem_append.mp h1 with h2 | h2
        · exact Or.inl h2
        · simp at h2; subst h2; exact Or.inr hn
      · obtain ⟨n, _, hc⟩ := hc
        rw [hc] at h1
        exact Or.inl h1
    · exact Or.inr h1

theorem commonScanFold_oth (st : FlattenState) (ctNs : String) (og : SchemaInfo) :
    ∀ (vals : List String) (acc : List String × List String) (x : String),
      x ∈ (vals.foldl (commonScanVal st ctNs og) acc).2 →
      x ∈ acc.2 ∨ (dictLookup (cns_namespaces st) x).isSome := by
  intro vals
  induction vals with
  | nil => intro acc x h; exact Or.inl h
  | cons v vs ih =>
    intro acc x h
    rw [List.foldl_cons] at h
    rcases ih _ x h with h1 | h1
    · rcases commonScanVal_cases st ctNs og acc v with hc | hc | hc
      · rw [hc] at h1; exact Or.inl h1
      · obtain ⟨n, _, hc⟩ := hc
        rw [hc] at h1
        exact Or.inl h1
      · obtain ⟨n, hn, hc⟩ := hc
        rw [hc] at h1
        rcases List.mem_append.mp h1 with h2 | h2
        · exact Or.inl h2
        · simp at h2; subst h2; exact Or.inr hn
    · exact Or.inr h1

theorem commonStep_mem_ext (st : FlattenState) (ctNs : String)
    (acc : List String × List String × List (QKey × XTree)) (key : QKey) (x : String)
    (h : x ∈ (commonStep st ctNs acc key).1) :
    x ∈ acc.1 ∨ (dictLookup (external_ns_prefixes st) x).isSome := by
  cases hel : dictLookup st.global_definitions key with
  | none =>
    have heq : commonStep st ctNs acc key = acc := by simp [commonStep, hel]
    rw [heq] at h; exact Or.inl h
  | some el =>
    cases hog : originOf st key el with
    | none =>
      have heq : commonStep st ctNs acc key = acc := by simp [commonStep, hel, hog]
      rw [heq] at h; exact Or.inl h
    | some og =>
      have heq : (commonStep st ctNs acc key).1 =
          ((subtreeRefVals el).foldl (commonScanVal st ctNs og) (acc.1, acc.2.1)).1 := by
        simp [commonStep, hel, hog]
      rw [heq] at h
      exact commonScanFold_ext st ctNs og (subtreeRefVals el) (acc.1, acc.2.1) x h

theorem commonStep_mem_oth (st : FlattenState) (ctNs : String)
    (acc : List String × List String × List (QKey × XTree)) (key : QKey) (x : String)
    (h : x ∈ (commonStep st ctNs acc key).2.1) :
    x ∈ acc.2.1 ∨ (dictLookup (cns_namespaces st) x).isSome := by
  cases hel : dictLookup st.global_definitions key with
  | none =>
    have heq : commonStep st ctNs acc key = acc := by simp [commonStep, hel]
    rw [heq] at h; exact Or.inl h
  | some el =>
    cases hog : originOf st key el with
    | none =>
      have heq : commonStep st ctNs acc key = acc := by simp [commonStep, hel, hog]
      rw [heq] at h; exact Or.inl h
    | some og =>
      have heq : (commonStep st ctNs acc key).2.1 =
          ((subtreeRefVals el).foldl (commonScanVal st ctNs og) (acc.1, acc.2.1)).2 := by
        simp [commonStep, hel, hog]
      rw [heq] at h
      exact commonScanFold_oth st ctNs og (subtreeRefVals el) (acc.1, acc.2.1) x h

theorem commonStep_mem_body (st : FlattenState) (ctNs : String)
    (acc : List String × List String × List (QKey × XTree)) (key : QKey)
    (x : QKey × XTree) (h : x ∈ (commonStep st ctNs acc key).2.2) :
    x ∈ acc.2.2 ∨ ∃ el og,
      dictLookup st.global_definitions key = some el ∧ originOf st key el = some og ∧
      x = (key, rewrite_prefixes st og ctNs true el) := by
  cases hel : dictLookup st.global_definitions key with
  | none =>
    have heq : commonStep st ctNs acc key = acc := by simp [commonStep, hel]
    rw [heq] at h; exact Or.inl h
  | some el =>
    cases hog : originOf st key el with
    | none =>
      have heq : commonStep st ctNs acc key = acc := by simp [commonStep, hel, hog]
      rw [heq] at h; exact Or.inl h
    | some og =>
      have heq : (commonStep st ctNs acc key).2.2 =
          acc.2.2 ++ [(key, rewrite_prefixes st og ctNs true el)] := by
        simp [commonStep, hel, hog]
      rw [heq] at h
      rcases List.mem_append.mp h with h1 | h1
      · exact Or.inl h1
      · simp only [List.mem_singleton] at h1
        exact Or.inr ⟨el, og, rfl, hog, h1⟩

theorem commonFold_mem_ext (st : FlattenState) (ctNs : String) :
    ∀ (keys : List QKey) (acc : List String × List String × List (QKey × XTree))
      (x : String),
      x ∈ (keys.foldl (commonStep st ctNs) acc).1 →
      x ∈ acc.1 ∨ (dictLookup (external_ns_prefixes st) x).isSome := by
  intro keys
  induction keys with
  | nil => intro acc x h; exact Or.inl h
  | cons k t ih =>
    intro acc x h
    rw [List.foldl_cons] at h
    rcases ih _ x h with h1 | h1
    · exact commonStep_mem_ext st ctNs acc k x h1
    · exact Or.inr h1

theorem commonFold_mem_oth (st : FlattenState) (ctNs : String) :
    ∀ (keys : List QKey) (acc : List String × List String × List (QKey × XTree))
      (x : String),
      x ∈ (keys.foldl (commonStep st ctNs) acc).2.1 →
      x ∈ acc.2.1 ∨ (dictLookup (cns_namespaces st) x).isSome := by
  intro keys
  induction keys with
  | nil => intro acc x h; exact Or.inl h
  | cons k t ih =>
    intro acc x h
    rw [List.foldl_cons] at h
    rcases ih _ x h with h1 | h1
    · exact commonStep_mem_oth st ctNs acc k x h1
    · exact Or.inr h1

theorem commonFold_mem_body (st : FlattenState) (ctNs : String) :
    ∀ (keys : List QKey) (acc : List String × List String × List (QKey × XTree))
      (x : QKey × XTree),
      x ∈ (keys.foldl (commonStep st ctNs) acc).2.2 →
      x ∈ acc.2.2 ∨ ∃ key ∈ keys, ∃ el og,
        dictLookup st.global_definitions key = some el ∧ originOf st key el = some og ∧
        x = (key, rewrite_prefixes st og ctNs true el) := by
  intro keys
  induction keys with
  | nil => intro acc x h; exact Or.inl h
  | cons k t ih =>
    intro acc x h
    rw [List.foldl_cons] at h
    rcases ih _ x h with h1 | h1
    · rcases commonStep_mem_body st ctNs acc k x h1 with h2 | h2
      · exact Or.inl h2
      · obtain ⟨el, og, he, ho, hx⟩ := h2
        exact Or.inr ⟨k, List.mem_cons_self _ _, el, og, he, ho, hx⟩
    · obtain ⟨key, hk, rest⟩ := h1
      exact Or.inr ⟨key, List.mem_cons_of_mem _ hk, rest⟩

theorem mainStep_mem (st : FlattenState) (acc : List (QKey × XTree)) (k : QKey)
    (x : QKey × XTree) (h : x ∈ mainStep st acc k) :
    x ∈ acc ∨ ∃ el og,
      dictLookup st.global_definitions k = some el ∧ originOf st k el = some og ∧
      x = (k, rewrite_prefixes st og (main_ns st) false el) := by
  cases hel : dictLookup st.global_definitions k with
  | none =>
    have heq : mainStep st acc k = acc := by simp [mainStep, hel]
    rw [heq] at h
    exact Or.inl h
  | some el =>
    cases hog : originOf st k el with
    | none =>
      have heq : mainStep st acc k = acc := by simp [mainStep, hel, hog]
      rw [heq] at h
      exact Or.inl h
    | some og =>
      have heq : mainStep st acc k =
          acc ++ [(k, rewrite_prefixes st og (main_ns st) false el)] := by
        simp [mainStep, hel, hog]
      rw [heq] at h
      rcases List.mem_append.mp h with h2 | h2
      · exact Or.inl h2
      · simp only [List.mem_singleton] at h2
        exact Or.inr ⟨el, og, rfl, hog, h2⟩

theorem mainFold_mem_body (st : FlattenState) :
    ∀ (keys : List QKey) (acc : List (QKey × XTree)) (x : QKey × XTree),
      x ∈ keys.foldl (mainStep st) acc →
      x ∈ acc ∨ ∃ key ∈ keys, ∃ el og,
        dictLookup st.global_definitions key = some el ∧ originOf st key el = some og ∧
        x = (key, rewrite_prefixes st og (main_ns st) false el) := by
  intro keys
  induction keys with
  | nil => intro acc x h; exact Or.inl h
  | cons k t ih =>
    intro acc x h
    rw [List.foldl_cons] at h
    rcases ih _ x h with h1 | h1
    · rcases mainStep_mem st acc k x h1 with h2 | h2
      · exact Or.inl h2
      · obtain ⟨el, og, he, ho, hx⟩ := h2
        exact Or.inr ⟨k, List.mem_cons_self _ _, el, og, he, ho, hx⟩
    · obtain ⟨key, hk, rest⟩ := h1
      exact Or.inr ⟨key, List.mem_cons_of_mem _ hk, rest⟩

theorem commonDocsOf_mem (st : FlattenState) (d : OutDoc) (h : d ∈ commonDocsOf st) :
    ∃ ns pfx keys, (ns, pfx) ∈ cns_namespaces st ∧
      dictLookup (defs_by_ns st) ns = some keys ∧ d = mkCommonDoc st ns pfx keys := by
  unfold commonDocsOf at h
  obtain ⟨np, hnp, hd⟩ := List.mem_filterMap.mp h
  cases hdl : dictLookup (defs_by_ns st) np.1 with
  | none => rw [hdl] at hd; simp at hd
  | some keys =>
    rw [hdl] at hd
    simp at hd
    exact ⟨np.1, np.2, keys, by simpa using hnp, hdl, hd.symm⟩

theorem mainDoc_imports_mem (st : FlattenState) (i : String × Option String)
    (h : i ∈ (mainDocOf st).imports) :
    ∃ pfx, (i.1, pfx) ∈ cns_namespaces st := by
  unfold mainDocOf at h
  simp only at h
  obtain ⟨np, hnp, hi⟩ := List.mem_filterMap.mp h
  by_cases hd : (dictLookup (defs_by_ns st) np.1).isSome
  · simp [hd] at hi
    refine ⟨np.2, ?_⟩
    rw [← hi]
    simpa using hnp
  · simp [hd] at hi

theorem used_ns_ne (st : FlattenState) (n : String)
    (hm : st.mainInfo.target_ns ≠ n)
    (hg : ∀ kv ∈ st.global_definitions, kv.1.1 ≠ n) :
    ∀ k ∈ find_used_definitions st, k.1 ≠ n := by
  intro k hk
  rcases used_key_cases st k hk with h1 | h1
  · rw [(seeds_ns st k h1).2]
    exact hm
  · have := (dictLookup_isSome_iff_mem _ _).mp h1
    obtain ⟨kv, hkv, hfst⟩ := List.mem_map.mp this
    rw [← hfst]
    exact hg kv hkv

theorem cns_lookup_ne (st : FlattenState) (n : String)
    (hm : st.mainInfo.target_ns ≠ n)
    (hg : ∀ kv ∈ st.global_definitions, kv.1.1 ≠ n) :
    dictLookup (cns_namespaces st) n = none := by
  cases hq : dictLookup (cns_namespaces st) n with
  | none => rfl
  | some q =>
    exfalso
    have hoth := cns_lookup_mem st n q hq
    have hdk := (other_namespaces_spec st n hoth).1
    obtain ⟨k, hk, hkn⟩ := defs_by_ns_keys st n hdk
    exact used_ns_ne st n hm hg k hk hkn

theorem rewriteRefVal_assigned (st : FlattenState) (og : SchemaInfo) (b : Bool)
    (v : String) (n l p : String)
    (h1 : resolve_reference v og.target_ns og.prefix_map = some (some n, l))
    (h3 : assignedPfx st n = some p) :
    rewriteRefVal st og b v = p ++ ":" ++ l := by
  unfold assignedPfx at h3
  by_cases hx : n = XSD_NS
  · rw [if_pos hx] at h3
    have hp : "xs" = p := Option.some.inj h3
    subst hx
    have heq : rewriteRefVal st og b v = "xs:" ++ l := by simp [rewriteRefVal, h1]
    rw [heq, ← hp]
    exact congrArg (fun s => s ++ l) (by decide)
  · rw [if_neg hx] at h3
    have hxs : (some n : Option String) ≠ some XSD_NS := by simpa using hx
    cases hc : dictLookup (cns_namespaces st) n with
    | some q =>
      rw [hc] at h3
      have hp : q = p := Option.some.inj h3
      subst hp
      simp [rewriteRefVal, h1, hxs, hc]
    | none =>
      rw [hc] at h3
      have hext : dictLookup (external_ns_prefixes st) n = some p := h3
      have hnm : n ≠ main_ns st := (ext_lookup_spec st n p hext).2
      simp [rewriteRefVal, h1, hxs, hc, hnm, hext]

theorem mkCommonDoc_imports_mem (st : FlattenState) (ctNs pfx : String)
    (keys : List QKey) (i : String × Option String)
    (h : i ∈ (mkCommonDoc st ctNs pfx keys).imports) :
    (dictLookup (cns_namespaces st) i.1).isSome ∨
    (dictLookup (external_ns_prefixes st) i.1).isSome := by
  unfold mkCommonDoc at h
  simp only at h
  rcases List.mem_append.mp h with h1 | h1
  · obtain ⟨o, ho, hoi⟩ := List.mem_map.mp h1
    have := (mem_sortStrs o _).mp (List.mem_reverse.mp ho)
    rcases commonFold_mem_oth st ctNs (sortKeys keys) ([], [], []) o this with h2 | h2
    · simp at h2
    · rw [← hoi]
      exact Or.inl h2
  · obtain ⟨e, he, hei⟩ := List.mem_map.mp h1
    have := (mem_sortStrs e _).mp (List.mem_reverse.mp he)
    rcases commonFold_mem_ext st ctNs (sortKeys keys) ([], [], []) e this with h2 | h2
    · simp at h2
    · rw [← hei]
      exact Or.inr h2

/-!  Lemmas: the loader.  -/

theorem dictLookup_dinsert {α β : Type} [DecidableEq α] (m : List (α × β)) (a : α)
    (b : β) (q : α) :
    dictLookup (dinsert m a b) q = if q = a then some b else dictLookup m q := by
  induction m with
  | nil =>
    by_cases h : q = a
    · simp [dinsert, dictLookup, h]
    · have h2 : ¬ a = q := fun hh => h hh.symm
      simp [dinsert, dictLookup, h, h2]
  | cons kv t ih =>
    obtain ⟨k, v⟩ := kv
    by_cases hk : k = a
    · subst hk
      by_cases hq : q = k
      · simp [dinsert, dictLookup, hq]
      · have h2 : ¬ k = q := fun hh => hq hh.symm
        simp [dinsert, dictLookup, hq, h2]
    · by_cases hq : k = q
      · subst hq
        simp [dinsert, dictLookup, hk]
      · simp [dinsert, dictLookup, hk, hq, ih]

theorem appendImport_pres (st : LoadState) (p l q : String)
    (h : (dictLookup st.schemas q).isSome) :
    (dictLookup (appendImport st p l).schemas q).isSome := by
  unfold appendImport
  cases hm : dictLookup st.schemas p with
  | none => exact h
  | some r =>
    simp only
    rw [dictLookup_dinsert]
    by_cases hq : q = p
    · simp [hq]
    · simp [hq]
      exact h

theorem appendImport_parseLog (st : LoadState) (p l : String) :
    (appendImport st p l).parseLog = st.parseLog := by
  unfold appendImport
  cases dictLookup st.schemas p <;> simp

theorem import_step_cases (loadF : String → LoadState → Option LoadRec × LoadState)
    (path : String) (st : LoadState) (c : XTree) :
    import_step loadF path st c = st ∨
    (∃ st4 loc, import_step loadF path st c = appendImport st4 path loc ∧
      st4.schemas = st.schemas ∧ st4.parseLog = st.parseLog) ∨
    (∃ loc, import_step loadF path st c = appendImport (loadF loc st).2 path loc) := by
  unfold import_step
  split
  · split
    · split
      · split
        · split
          · exact Or.inr (Or.inl ⟨_, _, rfl, rfl, rfl⟩)
          · exact Or.inr (Or.inr ⟨_, rfl⟩)
        · exact Or.inr (Or.inr ⟨_, rfl⟩)
      · exact Or.inl rfl
    · exact Or.inl rfl
  · exact Or.inl rfl

theorem import_step_pres (loadF : String → LoadState → Option LoadRec × LoadState)
    (hf : ∀ loc st q, (dictLookup st.schemas q).isSome →
      (dictLookup (loadF loc st).2.schemas q).isSome)
    (path : String) (st : LoadState) (c : XTree) (q : String)
    (h : (dictLookup st.schemas q).isSome) :
    (dictLookup (import_step loadF path st c).schemas q).isSome := by
  rcases import_step_cases loadF path st c with hc | hc | hc
  · rw [hc]; exact h
  · obtain ⟨st4, loc, hc, hs, _⟩ := hc
    rw [hc]
    apply appendImport_pres
    rw [hs]
    exact h
  · obtain ⟨loc, hc⟩ := hc
    rw [hc]
    exact appendImport_pres _ _ _ _ (hf loc st q h)

theorem import_step_log (loadF : String → LoadState → Option LoadRec × LoadState)
    (hf : ∀ loc st, ∃ tail, (loadF loc st).2.parseLog = st.parseLog ++ tail)
    (path : String) (st : LoadState) (c : XTree) :
    ∃ tail, (import_step loadF path st c).parseLog = st.parseLog ++ tail := by
  rcases import_step_cases loadF path st c with hc | hc | hc
  · rw [hc]; exact ⟨[], by simp⟩
  · obtain ⟨st4, loc, hc, _, hpl⟩ := hc
    rw [hc, appendImport_parseLog, hpl]
    exact ⟨[], by simp⟩
  · obtain ⟨loc, hc⟩ := hc
    rw [hc, appendImport_parseLog]
    exact hf loc st

theorem importFold_pres (loadF : String → LoadState → Option LoadRec × LoadState)
    (hf : ∀ loc st q, (dictLookup st.schemas q).isSome →
      (dictLookup (loadF loc st).2.schemas q).isSome) (path : String) :
    ∀ (cs : List XTree) (st : LoadState) (q : String),
      (dictLookup st.schemas q).isSome →
      (dictLookup ((cs.foldl (import_step loadF path) st)).schemas q).isSome := by
  intro cs
  induction cs with
  | nil => intro st q h; exact h
  | cons c t ih =>
    intro st q h
    rw [List.foldl_cons]
    exact ih _ q (import_step_pres loadF hf path st c q h)

theorem importFold_log (loadF : String → LoadState → Option LoadRec × LoadState)
    (hf : ∀ loc st, ∃ tail, (loadF loc st).2.parseLog = st.parseLog ++ tail)
    (path : String) :
    ∀ (cs : List XTree) (st : LoadState),
      ∃ tail, ((cs.foldl (import_step loadF path) st)).parseLog = st.parseLog ++ tail := by
  intro cs
  induction cs with
  | nil => intro st; exact ⟨[], by simp⟩
  | cons c t ih =>
    intro st
    rw [List.foldl_cons]
    obtain ⟨t1, h1⟩ := import_step_log loadF hf path st c
    obtain ⟨t2, h2⟩ := ih (import_step loadF path st c)
    exact ⟨t1 ++ t2, by rw [h2, h1, List.append_assoc]⟩

theorem load_pres (fs : FileSys) :
    ∀ (fuel : Nat) (p : String) (st : LoadState) (q : String),
      (dictLookup st.schemas q).isSome →
      (dictLookup (load_schema fs fuel p st).2.schemas q).isSome := by
  intro fuel
  induction fuel with
  | zero => intro p st q h; exact h
  | succ n ih =>
    intro p st q h
    cases hm : dictLookup st.schemas p with
    | some r =>
      simp only [load_schema, hm]
      exact h
    | none =>
      cases hfs : fsLookup fs p with
      | none =>
        simp only [load_schema, hm, hfs]
        exact h
      | some pr =>
        obtain ⟨root, startNs⟩ := pr
        simp only [load_schema, hm, hfs]
        apply importFold_pres (load_schema fs n) (fun loc st2 q2 h2 => ih loc st2 q2 h2)
        rw [dictLookup_dinsert]
        by_cases hq : q = p
        · simp [hq]
        · simp [hq]
          exact h

theorem load_log (fs : FileSys) :
    ∀ (fuel : Nat) (p : String) (st : LoadState),
      ∃ tail, (load_schema fs fuel p st).2.parseLog = st.parseLog ++ tail := by
  intro fuel
  induction fuel with
  | zero => intro p st; exact ⟨[], by simp [load_schema]⟩
  | succ n ih =>
    intro p st
    cases hm : dictLookup st.schemas p with
    | some r =>
      simp only [load_schema, hm]
      exact ⟨[], by simp⟩
    | none =>
      cases hfs : fsLookup fs p with
      | none =>
        simp only [load_schema, hm, hfs]
        exact ⟨[p], rfl⟩
      | some pr =>
        obtain ⟨root, startNs⟩ := pr
        simp only [load_schema, hm, hfs]
        obtain ⟨t2, h2⟩ :=
          importFold_log (load_schema fs n) (fun loc st2 => ih loc st2) p root.children
            { st with
              parseLog := st.parseLog ++ [p],
              schemas := dinsert st.schemas p
                { root := root,
                  target_ns := (getAttr root "targetNamespace").getD "",
                  prefix_map := startNs.foldl (fun m pu => dinsert m pu.1 pu.2) [],
                  definitions := collect_defs ((getAttr root "targetNamespace").getD "") root,
                  imports := [] },
              global_definitions :=
                (collect_defs ((getAttr root "targetNamespace").getD "") root).foldl
                  (fun a kv => dinsert a kv.1 kv.2) st.global_definitions }
        refine ⟨[p] ++ t2, ?_⟩
        rw [h2]
        simp

/-!  Claim theorems.  -/

/-- Claim C4: every QualifiedKey in the ReachableSet returned by
find_used_definitions is present as a key of the global symbol table when
output generation starts, so the unguarded global_definitions lookups over
the used keys never fail.  The hypothesis is the loader invariant that the
entry document's own declarations were published in the global table. -/
theorem claim_C4 (st : FlattenState)
    (h : ∀ k ∈ st.mainInfo.definitions.map Prod.fst,
      (dictLookup st.global_definitions k).isSome) :
    ∀ k ∈ find_used_definitions st, (dictLookup st.global_definitions k).isSome := by
  intro k hk
  rcases used_key_cases st k hk with h1 | h1
  · exact h k (seeds_ns st k h1).1
  · exact h1

/-- Witness for C4 on corpus 1: the reached common-namespace key is in the
global table. -/
theorem claim_C4_witness :
    (dictLookup st1.global_definitions ("urn:C", "AType")).isSome :=
  claim_C4 st1 (by decide) ("urn:C", "AType") (by decide)

/-- Claim C9: the reachability loop terminates.  One loop iteration adds the
newly enqueued keys to the used set (a key is marked used at the moment it
is enqueued) and only enqueues keys not yet used, so with the finite global
table the fuel bound 2 times the table size plus the queue length plus one
always suffices: the loop reaches the empty queue. -/
theorem claim_C9 (st : FlattenState) (used queue : List QKey) (key : QKey) :
    (processOne st used key).1 = used ++ (processOne st used key).2 ∧
    (∀ k ∈ (processOne st used key).2, k ∉ used) ∧
    ∃ r, bfs st (2 * st.global_definitions.length + queue.length + 1) used queue =
      some r := by
  obtain ⟨h1, h2, h3⟩ := processOne_spec st used key
  refine ⟨h1, fun k hk => (h3 k hk).1, ?_⟩
  apply bfs_total
  have hle : countFresh (st.global_definitions.map Prod.fst) used ≤
      (st.global_definitions.map Prod.fst).length := List.length_filter_le _ _
  have hlen : (st.global_definitions.map Prod.fst).length =
      st.global_definitions.length := List.length_map _ _
  omega

/-- Witness for C9 on corpus 1: a freshly discovered key was not yet used,
and the loop terminates within the bound. -/
theorem claim_C9_witness :
    (("urn:C", "AType") ∉ seedsOf st1) ∧
    ∃ r, bfs st1 (2 * st1.global_definitions.length + (seedsOf st1).length + 1)
      (seedsOf st1) (seedsOf st1) = some r :=
  ⟨(claim_C9 st1 (seedsOf st1) (seedsOf st1) ("urn:M", "Root")).2.1 ("urn:C", "AType")
      (by decide),
    (claim_C9 st1 (seedsOf st1) (seedsOf st1) ("urn:M", "Root")).2.2⟩

/-- Claim C5: every declaration appended to a generated main or
common-namespace output document is the rewritten copy of a declaration
whose QualifiedKey belongs to the ReachableSet computed by
find_used_definitions; no declaration outside the ReachableSet appears. -/
theorem claim_C5 (st : FlattenState) (k : QKey) (t : XTree)
    (h : (k, t) ∈ (mainDocOf st).body ∨ ∃ d ∈ commonDocsOf st, (k, t) ∈ d.body) :
    k ∈ find_used_definitions st ∧
    ∃ el og tns b, dictLookup st.global_definitions k = some el ∧
      originOf st k el = some og ∧ t = rewrite_prefixes st og tns b el := by
  rcases h with h | h
  · unfold mainDocOf at h
    simp only at h
    cases hdl : dictLookup (defs_by_ns st) (main_ns st) with
    | none => rw [hdl] at h; simp at h
    | some keys =>
      rw [hdl] at h
      rcases mainFold_mem_body st (sortKeys keys) [] (k, t) h with h1 | h1
      · simp at h1
      · obtain ⟨key, hkey, el, og, hel, hog, hx⟩ := h1
        injection hx with hk ht
        subst hk
        exact ⟨defs_by_ns_values st (main_ns st) keys hdl k ((mem_sortKeys k keys).mp hkey),
          el, og, main_ns st, false, hel, hog, ht⟩
  · obtain ⟨d, hd, hmem⟩ := h
    obtain ⟨ns, pfx, keys, hcns, hdl, hdoc⟩ := commonDocsOf_mem st d hd
    subst hdoc
    unfold mkCommonDoc at hmem
    simp only at hmem
    rcases commonFold_mem_body st ns (sortKeys keys) ([], [], []) (k, t) hmem with h1 | h1
    · simp at h1
    · obtain ⟨key, hkey, el, og, hel, hog, hx⟩ := h1
      injection hx with hk ht
      subst hk
      exact ⟨defs_by_ns_values st ns keys hdl k ((mem_sortKeys k keys).mp hkey),
        el, og, ns, true, hel, hog, ht⟩

/-- Witness for C5 on corpus 1: the Hdr declaration of the main document's
body is reachable. -/
theorem claim_C5_witness : ("urn:M", "Hdr") ∈ find_used_definitions st1 :=
  (claim_C5 st1 ("urn:M", "Hdr") elHdr (Or.inl (by decide))).1

/-- Claim C3 as amended: the prefix assignment of one flatten run is total
and single-valued on the non-entry, non-schema-definition-language
namespaces of the reachable set (each gets exactly one prefix); injectivity
of the assignment, however, fails on the code (see the counterexample). -/
theorem claim_C3 (st : FlattenState) :
    (cns_namespaces st).map Prod.fst = other_namespaces st ∧
    (other_namespaces st).Nodup := by
  refine ⟨cns_fst st, ?_⟩
  unfold other_namespaces
  exact (defs_by_ns_keys_nodup st).filter _

/-- Counterexample to C3 as stated: on corpus 3 the two distinct reachable
common namespaces urn:C1 and urn:C2 are both assigned the prefix p, because
the source-prefix search never checks that a found prefix is already
taken. -/
theorem claim_C3_counterexample :
    cns_namespaces st3 = [("urn:C1", "p"), ("urn:C2", "p")] ∧
    ("urn:C1" : String) ≠ "urn:C2" := by decide

/-- Claim C1 as amended: for every namespace other than the entry namespace
to which the run assigns a prefix (the schema-definition-language
namespace, every common namespace and every used foreign namespace), any
two references resolving to that namespace are rewritten with that same
one prefix, regardless of which output document (main or common) each is
emitted into.  The entry namespace itself is excluded: it is rewritten
bare in the main document and with the msg prefix in common documents
(see the counterexample). -/
theorem claim_C1 (st : FlattenState) (og1 og2 : SchemaInfo) (b1 b2 : Bool)
    (v1 v2 n l1 l2 p : String)
    (h1 : resolve_reference v1 og1.target_ns og1.prefix_map = some (some n, l1))
    (h2 : resolve_reference v2 og2.target_ns og2.prefix_map = some (some n, l2))
    (h3 : assignedPfx st n = some p) :
    rewriteRefVal st og1 b1 v1 = p ++ ":" ++ l1 ∧
    rewriteRefVal st og2 b2 v2 = p ++ ":" ++ l2 :=
  ⟨rewriteRefVal_assigned st og1 b1 v1 n l1 p h1 h3,
   rewriteRefVal_assigned st og2 b2 v2 n l2 p h2 h3⟩

/-- Witness for amended C1 on corpus 1: the same common-namespace reference
is rewritten with the same prefix cns in main mode and in common mode. -/
theorem claim_C1_witness :
    rewriteRefVal st1 infoE false "cns:AType" = "cns" ++ ":" ++ "AType" ∧
    rewriteRefVal st1 infoE true "cns:AType" = "cns" ++ ":" ++ "AType" :=
  claim_C1 st1 infoE infoE false true "cns:AType" "cns:AType" "urn:C" "AType" "AType"
    "cns" (by decide) (by decide) (by decide)

/-- Counterexample to C1 as stated: on corpus 1 the entry namespace urn:M is
referenced from both generated documents, with the empty prefix in the main
document (value HeaderType) and the msg prefix in the common document
(value msg:HeaderType); the raw source values of both rewritten attributes
resolve to urn:M, yet the emitted prefixes differ. -/
theorem claim_C1_counterexample :
    getAttr (((mainDocOf st1).body.headD dEntry).2) "type" = some "HeaderType" ∧
    getAttr ((((commonDocsOf st1).headD dDoc).body.headD dEntry).2.children.headD dTree)
      "type" = some "msg:HeaderType" ∧
    resolve_reference "HeaderType" infoE.target_ns infoE.prefix_map =
      some (some "urn:M", "HeaderType") ∧
    resolve_reference "m:HeaderType" infoS.target_ns infoS.prefix_map =
      some (some "urn:M", "HeaderType") ∧
    main_ns st1 = "urn:M" ∧
    refPfx "HeaderType" = "" ∧ refPfx "msg:HeaderType" = "msg" ∧
    ("" : String) ≠ "msg" := by decide

/-- Claim C8 as amended: the main document's version attribute is propagated
from the entry document's root (defaulting to 1.0), but every generated
common-namespace document carries the fixed version 1.0, NOT the entry
document's version (see the counterexample). -/
theorem claim_C8 (st : FlattenState) :
    (mainDocOf st).version = (getAttr st.mainInfo.root "version").getD "1.0" ∧
    ∀ d ∈ commonDocsOf st, d.version = "1.0" := by
  refine ⟨rfl, ?_⟩
  intro d hd
  obtain ⟨ns, pfx, keys, _, _, hdoc⟩ := commonDocsOf_mem st d hd
  rw [hdoc]
  rfl

/-- Witness for amended C8 on corpus 1: the generated common document's
version is 1.0. -/
theorem claim_C8_witness :
    ((commonDocsOf st1).headD dDoc).version = "1.0" :=
  (claim_C8 st1).2 ((commonDocsOf st1).headD dDoc) (by decide)

/-- Counterexample to C8 as stated: on corpus 1 the entry document carries
version 2.0; the main document propagates it but the common-namespace
document is emitted with version 1.0, which differs. -/
theorem claim_C8_counterexample :
    getAttr st1.mainInfo.root "version" = some "2.0" ∧
    (mainDocOf st1).version = "2.0" ∧
    ((commonDocsOf st1).headD dDoc).version = "1.0" ∧
    ("1.0" : String) ≠ "2.0" := by decide

/-- Claim C2, evaluation of the code at the failing input (code bug): on
corpus 1 a common-namespace declaration references the entry-namespace type
HeaderType; the generated common document rewrites the reference with the
back-reference prefix msg (so the prefix is not an empty or default one),
but, contrary to the claim, it contains NO import of the entry namespace
urn:M (its import list is empty) and NO namespace declaration binding msg:
the emitted document uses an undeclared prefix. -/
theorem claim_C2 :
    getAttr ((((commonDocsOf st1).headD dDoc).body.headD dEntry).2.children.headD dTree)
      "type" = some "msg:HeaderType" ∧
    ((commonDocsOf st1).headD dDoc).imports = [] ∧
    ((commonDocsOf st1).headD dDoc).xmlns_decls = [("cns", "urn:C")] ∧
    dictLookup ((commonDocsOf st1).headD dDoc).xmlns_decls "msg" = none ∧
    (commonDocsOf st1).length = 1 := by decide

/-- Claim C6: a recorded foreign schema is copied only when some reachable
declaration's subtree carries a reference resolving to it; a foreign
namespace (never locally defined, hence contributing no global key and
distinct from the entry namespace) that is referenced by no reachable
declaration is not copied, and no import for it appears in the main
document or in any common-namespace document. -/
theorem claim_C6 (st : FlattenState) (n : String)
    (hm : st.mainInfo.target_ns ≠ n)
    (hg : ∀ kv ∈ st.global_definitions, kv.1.1 ≠ n)
    (href : ∀ k ∈ find_used_definitions st, declRefsNs st k n = false) :
    (∀ srcEx dstEx (x : String × String), x ∈ copied_external_schemas st srcEx dstEx →
      ∃ k ∈ find_used_definitions st, declRefsNs st k x.1 = true) ∧
    (∀ srcEx dstEx (x : String × String), x ∈ copied_external_schemas st srcEx dstEx →
      x.1 ≠ n) ∧
    (∀ i ∈ (mainDocOf st).imports, i.1 ≠ n) ∧
    (∀ d ∈ commonDocsOf st, ∀ i ∈ d.imports, i.1 ≠ n) := by
  have hnotused : n ∉ used_external_namespaces st := by
    intro hn
    obtain ⟨_, k, hk, hdecl⟩ := usedExt_spec st n hn
    rw [href k hk] at hdecl
    simp at hdecl
  have hcopy_used : ∀ (srcEx dstEx : String → Bool) (x : String × String),
      x ∈ copied_external_schemas st srcEx dstEx →
      x.1 ∈ used_external_namespaces st := by
    intro srcEx dstEx x hx
    unfold copied_external_schemas at hx
    have h2 := (List.mem_filter.mp hx).2
    simp at h2
    exact h2.1.1
  refine ⟨?_, ?_, ?_, ?_⟩
  · intro srcEx dstEx x hx
    exact (usedExt_spec st x.1 (hcopy_used srcEx dstEx x hx)).2
  · intro srcEx dstEx x hx heq
    exact hnotused (heq ▸ hcopy_used srcEx dstEx x hx)
  · intro i hi heq
    obtain ⟨pfx, hmem⟩ := mainDoc_imports_mem st i hi
    have hsome : (dictLookup (cns_namespaces st) i.1).isSome :=
      (dictLookup_isSome_iff_mem _ _).mpr (List.mem_map.mpr ⟨(i.1, pfx), hmem, rfl⟩)
    rw [heq, cns_lookup_ne st n hm hg] at hsome
    simp at hsome
  · intro d hd i hi heq
    obtain ⟨ns, pfx, keys, _, _, hdoc⟩ := commonDocsOf_mem st d hd
    subst hdoc
    rcases mkCommonDoc_imports_mem st ns pfx keys i hi with h1 | h1
    · rw [heq, cns_lookup_ne st n hm hg] at h1
      simp at h1
    · obtain ⟨q, hq⟩ := Option.isSome_iff_exists.mp h1
      have := (ext_lookup_spec st i.1 q hq).1
      rw [heq] at this
      exact hnotused this

/-- Witness for C6 on corpus 6: the foreign schema urn:X, referenced only
from the unreachable declaration Unused, is not copied even when its source
file exists and no destination copy does. -/
theorem claim_C6_witness :
    ("urn:X", "xmldsig-core-schema.xsd") ∉
      copied_external_schemas st6 (fun _ => true) (fun _ => false) := by
  intro hmem
  exact (claim_C6 st6 "urn:X" (by decide) (by decide) (by decide)).2.1
    (fun _ => true) (fun _ => false) ("urn:X", "xmldsig-core-schema.xsd") hmem rfl

/-- Claim C7: the five-way case analysis of resolve_reference.  An empty
value yields null; a (non-empty) prefix bound in the map to a (non-empty)
namespace yields that namespace with the local name; the conventional xs
prefix, when unbound, falls back to the fixed schema-definition-language
namespace; any other unbound prefix yields the null-namespace marker; and
a value carrying no prefix resolves against the current namespace. -/
theorem claim_C7 (value current_ns : String) (pm : List (String × String)) :
    (value = "" → resolve_reference value current_ns pm = none) ∧
    (∀ p l ns, value ≠ "" → split_qname value = (some p, l) → p ≠ "" →
      dictLookup pm p = some ns → ns ≠ "" →
      resolve_reference value current_ns pm = some (some ns, l)) ∧
    (∀ l, value ≠ "" → split_qname value = (some "xs", l) →
      (dictLookup pm "xs" = none ∨ dictLookup pm "xs" = some "") →
      resolve_reference value current_ns pm = some (some XSD_NS, l)) ∧
    (∀ p l, value ≠ "" → split_qname value = (some p, l) → p ≠ "" → p ≠ "xs" →
      (dictLookup pm p = none ∨ dictLookup pm p = some "") →
      resolve_reference value current_ns pm = some (none, l)) ∧
    (∀ l, value ≠ "" →
      (split_qname value = (none, l) ∨ split_qname value = (some "", l)) →
      resolve_reference value current_ns pm = some (some current_ns, l)) := by
  refine ⟨?_, ?_, ?_, ?_, ?_⟩
  · intro h
    simp [resolve_reference, h]
  · intro p l ns hne hsplit hp hlook hns
    simp [resolve_reference, hne, hsplit, hp, hlook, hns]
  · intro l hne hsplit hlook
    rcases hlook with hl | hl
    · simp [resolve_reference, hne, hsplit, hl]
    · simp [resolve_reference, hne, hsplit, hl]
  · intro p l hne hsplit hp hpxs hlook
    rcases hlook with hl | hl
    · simp [resolve_reference, hne, hsplit, hp, hpxs, hl]
    · simp [resolve_reference, hne, hsplit, hp, hpxs, hl]
  · intro l hne hsplit
    rcases hsplit with hs | hs
    · simp [resolve_reference, hne, hs]
    · simp [resolve_reference, hne, hs]

/-- Witness for C7: all five cases evaluated on a concrete prefix map that
binds cns to urn:C and binds e to the empty string. -/
theorem claim_C7_witness :
    resolve_reference "" "urn:cur" [("cns", "urn:C"), ("e", "")] = none ∧
    resolve_reference "cns:X" "urn:cur" [("cns", "urn:C"), ("e", "")] =
      some (some "urn:C", "X") ∧
    resolve_reference "xs:int" "urn:cur" [("cns", "urn:C"), ("e", "")] =
      some (some XSD_NS, "int") ∧
    resolve_reference "e:X" "urn:cur" [("cns", "urn:C"), ("e", "")] = some (none, "X") ∧
    resolve_reference "plain" "urn:cur" [("cns", "urn:C"), ("e", "")] =
      some (some "urn:cur", "plain") :=
  ⟨(claim_C7 "" "urn:cur" [("cns", "urn:C"), ("e", "")]).1 rfl,
   (claim_C7 "cns:X" "urn:cur" [("cns", "urn:C"), ("e", "")]).2.1 "cns" "X" "urn:C"
     (by decide) (by decide) (by decide) (by decide) (by decide),
   (claim_C7 "xs:int" "urn:cur" [("cns", "urn:C"), ("e", "")]).2.2.1 "int"
     (by decide) (by decide) (Or.inl (by decide)),
   (claim_C7 "e:X" "urn:cur" [("cns", "urn:C"), ("e", "")]).2.2.2.1 "e" "X"
     (by decide) (by decide) (by decide) (by decide) (Or.inr (by decide)),
   (claim_C7 "plain" "urn:cur" [("cns", "urn:C"), ("e", "")]).2.2.2.2 "plain"
     (by decide) (Or.inl (by decide))⟩

/-- Claim C10: load_schema does not memoize failures and memoizes successes.
A failed parse inserts no record for the path (the schemas map is
unchanged), returns none, and a subsequent call for the same path attempts
the parse again (the parse log grows again); a successful load stores its
record and returns it, a record is present for the path in the resulting
state, and a later call for that path returns that same record without
re-parsing (the state, its parse log included, is untouched). -/
theorem claim_C10 (fs : FileSys) (st : LoadState) (n : Nat) (path : String) :
    (dictLookup st.schemas path = none → fsLookup fs path = none →
      load_schema fs (n + 1) path st =
        (none, { st with parseLog := st.parseLog ++ [path] }) ∧
      (load_schema fs (n + 1) path
          { st with parseLog := st.parseLog ++ [path] }).2.parseLog =
        st.parseLog ++ [path] ++ [path]) ∧
    (∀ r, dictLookup st.schemas path = some r →
      load_schema fs (n + 1) path st = (some r, st)) ∧
    (∀ root startNs, dictLookup st.schemas path = none →
      fsLookup fs path = some (root, startNs) →
      ∃ r st', load_schema fs (n + 1) path st = (some r, st') ∧
        dictLookup st'.schemas path = some r ∧
        (∃ tail, st'.parseLog = st.parseLog ++ [path] ++ tail) ∧
        load_schema fs (n + 1) path st' = (some r, st')) := by
  refine ⟨?_, ?_, ?_⟩
  · intro h1 h2
    constructor
    · simp [load_schema, h1, h2]
    · simp [load_schema, h1, h2]
  · intro r h
    simp [load_schema, h]
  · intro root startNs h1 h2
    have hbase : (dictLookup
        ({ st with
            parseLog := st.parseLog ++ [path],
            schemas := dinsert st.schemas path
              { root := root,
                target_ns := (getAttr root "targetNamespace").getD "",
                prefix_map := startNs.foldl (fun m pu => dinsert m pu.1 pu.2) [],
                definitions := collect_defs ((getAttr root "targetNamespace").getD "") root,
                imports := [] },
            global_definitions :=
              (collect_defs ((getAttr root "targetNamespace").getD "") root).foldl
                (fun a kv => dinsert a kv.1 kv.2) st.global_definitions } :
          LoadState).schemas path).isSome := by
      simp [dictLookup_dinsert]
    have hpres := importFold_pres (load_schema fs n)
      (fun loc s q h => load_pres fs n loc s q h) path root.children _ path hbase
    obtain ⟨r, hr⟩ := Option.isSome_iff_exists.mp hpres
    obtain ⟨t2, hlog⟩ := importFold_log (load_schema fs n)
      (fun loc s => load_log fs n loc s) path root.children
      { st with
        parseLog := st.parseLog ++ [path],
        schemas := dinsert st.schemas path
          { root := root,
            target_ns := (getAttr root "targetNamespace").getD "",
            prefix_map := startNs.foldl (fun m pu => dinsert m pu.1 pu.2) [],
            definitions := collect_defs ((getAttr root "targetNamespace").getD "") root,
            imports := [] },
        global_definitions :=
          (collect_defs ((getAttr root "targetNamespace").getD "") root).foldl
            (fun a kv => dinsert a kv.1 kv.2) st.global_definitions }
    refine ⟨r, _, ?_, hr, ⟨t2, ?_⟩, ?_⟩
    · simp only [load_schema, h1, h2]
      rw [hr]
      simp
    · rw [hlog]
    · simp [load_schema, hr]

/-- Witness for C10 on the loader fixture: loading bad.xsd (which does not
parse) memoizes nothing and a second call parses again; loading good.xsd
stores and returns a record that every later call returns unchanged. -/
theorem claim_C10_witness :
    load_schema fs10 1 "bad.xsd" st0 =
      (none, { st0 with parseLog := st0.parseLog ++ ["bad.xsd"] }) ∧
    (load_schema fs10 1 "bad.xsd"
        { st0 with parseLog := st0.parseLog ++ ["bad.xsd"] }).2.parseLog =
      st0.parseLog ++ ["bad.xsd"] ++ ["bad.xsd"] ∧
    ∃ r st', load_schema fs10 1 "good.xsd" st0 = (some r, st') ∧
      dictLookup st'.schemas "good.xsd" = some r ∧
      (∃ tail, st'.parseLog = st0.parseLog ++ ["good.xsd"] ++ tail) ∧
      load_schema fs10 1 "good.xsd" st' = (some r, st') :=
  ⟨((claim_C10 fs10 st0 0 "bad.xsd").1 rfl (by decide)).1,
   ((claim_C10 fs10 st0 0 "bad.xsd").1 rfl (by decide)).2,
   (claim_C10 fs10 st0 0 "good.xsd").2.2 root10 [("xs", XSD_NS)] rfl (by decide)⟩
